import Mathlib

/-!
Verification of the `vstsdiff` tool (single file `vstsdiff.py`).

The development shallowly embeds the program logic:

* `Json`, `dumpVal`/`dumps` and `parseVal`/`loads` model the JSON documents
  the tool manipulates together with the behaviour of Python's `json.dump`
  (with an integer `indent`, `ensure_ascii` escaping) and `json.loads`
  (whitespace-tolerant recursive-descent scanner, objects built by repeated
  dict insertion).  The network and the file system are external collaborators
  and are abstracted: an HTTP response is a `Response` record (its `ok` flag,
  `status_code` and parsed body), a written temporary file is the pair of its
  name seed and its character contents.
* `select_env`, `find_rdid`, `write_env_file`, `environment_files`,
  `get_diff_exe` and `resolve_diff_exe` mirror the functions of the source
  file; console input is the list of outcomes of `int(...)` on the strings
  the user typed, i.e. `List (Option Int)`.

Machine integers do not occur: Python integers are unbounded, so `Int`/`Nat`
model them exactly.
-/

/-- A JSON document as produced by `response.json()` and consumed by
`json.dump`: null, booleans, (integer) numbers, strings, arrays and objects
given as insertion-ordered key/value lists. -/
inductive Json where
  | null : Json
  | bool (b : Bool) : Json
  | num (n : Int) : Json
  | str (s : List Char) : Json
  | arr (xs : List Json) : Json
  | obj (ps : List ((List Char) × Json)) : Json

mutual

/-- Node count of a JSON value, used to bound parser fuel. -/
def sizeJ : Json → Nat
  | Json.null => 1
  | Json.bool _ => 1
  | Json.num _ => 1
  | Json.str _ => 1
  | Json.arr xs => sizeL xs + 1
  | Json.obj ps => sizeP ps + 1

/-- Node count of a list of JSON values. -/
def sizeL : List Json → Nat
  | [] => 0
  | x :: xs => sizeJ x + sizeL xs + 1

/-- Node count of a key/value list. -/
def sizeP : List ((List Char) × Json) → Nat
  | [] => 0
  | p :: ps => sizeJ p.2 + sizeP ps + 1

end

/-- Does key `k` not occur in the pair list? -/
def freshIn (k : List Char) : List ((List Char) × Json) → Bool
  | [] => true
  | p :: ps => (decide (¬ p.1 = k)) && freshIn k ps

/-- Are all keys of the pair list distinct? -/
def nodupKeysOf : List ((List Char) × Json) → Bool
  | [] => true
  | p :: ps => freshIn p.1 ps && nodupKeysOf ps

mutual

/-- All objects anywhere inside the value have distinct keys.  This is the
invariant every value obtained from a Python `dict` tree satisfies. -/
def nodupDeep : Json → Bool
  | Json.null => true
  | Json.bool _ => true
  | Json.num _ => true
  | Json.str _ => true
  | Json.arr xs => nodupDeepL xs
  | Json.obj ps => nodupKeysOf ps && nodupDeepP ps

/-- `nodupDeep` for every element of a list. -/
def nodupDeepL : List Json → Bool
  | [] => true
  | x :: xs => nodupDeep x && nodupDeepL xs

/-- `nodupDeep` for every value of a pair list. -/
def nodupDeepP : List ((List Char) × Json) → Bool
  | [] => true
  | p :: ps => nodupDeep p.2 && nodupDeepP ps

end

/-- The decimal digit character for `n < 10`. -/
def digitChar (n : Nat) : Char := Char.ofNat (48 + n)

/-- Decimal digits of a natural number, most significant first, as printed by
Python's `repr` of a nonnegative `int`. -/
def natDigits (n : Nat) : List Char :=
  if _h : n < 10 then [digitChar n]
  else natDigits (n / 10) ++ [digitChar (n % 10)]
termination_by n
decreasing_by
  exact Nat.div_lt_self (by omega) (by omega)

/-- Python `repr` of an `int`. -/
def intStr (n : Int) : List Char :=
  if n < 0 then '-' :: natDigits (-n).toNat else natDigits n.toNat

/-- Lower-case hexadecimal digit for `n < 16`. -/
def hexChar (n : Nat) : Char :=
  if n < 10 then Char.ofNat (48 + n) else Char.ofNat (87 + n)

/-- Four-digit lower-case hexadecimal rendering of `n < 0x10000`, as printed
by the `\uXXXX` escapes of `json.dump`. -/
def hex4 (n : Nat) : List Char :=
  [hexChar (n / 4096 % 16), hexChar (n / 256 % 16), hexChar (n / 16 % 16), hexChar (n % 16)]

/-- Escape one character the way `json.dump` does with the default
`ensure_ascii=True`: the short `\"`, `\\`, `\b`, `\f`, `\n`, `\r`, `\t`
escapes, printable ASCII kept literal, everything else as `\uXXXX`
(a surrogate pair for code points above `0xFFFF`). -/
def escChar (c : Char) : List Char :=
  if c = '"' then ['\\', '"']
  else if c = '\\' then ['\\', '\\']
  else if c.toNat = 8 then ['\\', 'b']
  else if c.toNat = 12 then ['\\', 'f']
  else if c.toNat = 10 then ['\\', 'n']
  else if c.toNat = 13 then ['\\', 'r']
  else if c.toNat = 9 then ['\\', 't']
  else if 32 ≤ c.toNat ∧ c.toNat ≤ 126 then [c]
  else if c.toNat < 65536 then '\\' :: 'u' :: hex4 c.toNat
  else
    ('\\' :: 'u' :: hex4 (55296 + (c.toNat - 65536) / 1024)) ++
      ('\\' :: 'u' :: hex4 (56320 + (c.toNat - 65536) % 1024))

/-- The body of a JSON string literal: each character escaped. -/
def encBody (s : List Char) : List Char :=
  s.foldr (fun c acc => escChar c ++ acc) []

/-- A JSON string literal: quote, escaped body, quote. -/
def encStr (s : List Char) : List Char :=
  '"' :: encBody s ++ ['"']

/-- The opening curly bracket character. -/
def lbrace : Char := Char.ofNat 123

/-- The closing curly bracket character. -/
def rbrace : Char := Char.ofNat 125

/-- `indent` string repeated `lvl` times, as prepended by `json.dump` after
each newline at nesting level `lvl`. -/
def indRepeat (ind : List Char) : Nat → List Char
  | 0 => []
  | l + 1 => ind ++ indRepeat ind l

/-- Newline plus indentation at nesting level `lvl`. -/
def nlind (ind : List Char) (lvl : Nat) : List Char :=
  '\n' :: indRepeat ind lvl

mutual

/-- Serialize a JSON value at nesting level `lvl` exactly as
`json.dump(obj, f, indent=i)` does, where `ind` is the indent string
(`i.toNat` spaces).  With an integer indent Python always breaks container
items onto their own lines and uses separators `,` and `: `. -/
def dumpVal (ind : List Char) (lvl : Nat) : Json → List Char
  | Json.null => ['n', 'u', 'l', 'l']
  | Json.bool true => ['t', 'r', 'u', 'e']
  | Json.bool false => ['f', 'a', 'l', 's', 'e']
  | Json.num n => intStr n
  | Json.str s => encStr s
  | Json.arr [] => ['[', ']']
  | Json.arr (x :: xs) =>
    '[' :: (nlind ind (lvl + 1) ++ (dumpVal ind (lvl + 1) x ++
      (dumpItems ind (lvl + 1) xs ++ (nlind ind lvl ++ [']']))))
  | Json.obj [] => [lbrace, rbrace]
  | Json.obj (p :: ps) =>
    lbrace :: (nlind ind (lvl + 1) ++ (encStr p.1 ++ (':' :: ' ' ::
      (dumpVal ind (lvl + 1) p.2 ++
        (dumpPairs ind (lvl + 1) ps ++ (nlind ind lvl ++ [rbrace]))))))

/-- Remaining array items after the first: `,` newline indent item … -/
def dumpItems (ind : List Char) (lvl : Nat) : List Json → List Char
  | [] => []
  | x :: xs =>
    ',' :: (nlind ind lvl ++ (dumpVal ind lvl x ++ dumpItems ind lvl xs))

/-- Remaining object members after the first: `,` newline indent key `: ` value … -/
def dumpPairs (ind : List Char) (lvl : Nat) : List ((List Char) × Json) → List Char
  | [] => []
  | p :: ps =>
    ',' :: (nlind ind lvl ++ (encStr p.1 ++ (':' :: ' ' ::
      (dumpVal ind lvl p.2 ++ dumpPairs ind lvl ps))))

end

/-- Full serialization of `json.dump(obj, f, indent=indent)` for an `int`
indent: `' ' * indent` is empty for negative values. -/
def dumps (v : Json) (indent : Int) : List Char :=
  dumpVal (List.replicate indent.toNat ' ') 0 v

/-- The whitespace characters skipped by the `json` scanner. -/
def isWsChar (c : Char) : Bool :=
  c = ' ' || c = '\t' || c = '\n' || c = '\r'

/-- Drop leading JSON whitespace. -/
def skipWs : List Char → List Char
  | [] => []
  | c :: rest => if isWsChar c then skipWs rest else c :: rest

/-- Is `c` a decimal digit? -/
def isDigitChar (c : Char) : Bool :=
  decide (48 ≤ c.toNat ∧ c.toNat ≤ 57)

/-- Value of a hexadecimal digit, upper or lower case, as accepted by the
`\uXXXX` escape scanner. -/
def hexVal (c : Char) : Option Nat :=
  if 48 ≤ c.toNat ∧ c.toNat ≤ 57 then some (c.toNat - 48)
  else if 97 ≤ c.toNat ∧ c.toNat ≤ 102 then some (c.toNat - 87)
  else if 65 ≤ c.toNat ∧ c.toNat ≤ 70 then some (c.toNat - 55)
  else none

/-- Read exactly four hexadecimal digits. -/
def parseHex4 : List Char → Option (Nat × List Char)
  | a :: b :: c :: d :: rest =>
    match hexVal a, hexVal b, hexVal c, hexVal d with
    | some x, some y, some z, some w => some (x * 4096 + y * 256 + z * 16 + w, rest)
    | _, _, _, _ => none
  | _ => none

/-- The one-character escapes recognised after a backslash. -/
def escSimple (e : Char) : Option Char :=
  if e = '"' then some '"'
  else if e = '\\' then some '\\'
  else if e = '/' then some '/'
  else if e = 'b' then some (Char.ofNat 8)
  else if e = 'f' then some (Char.ofNat 12)
  else if e = 'n' then some '\n'
  else if e = 'r' then some (Char.ofNat 13)
  else if e = 't' then some '\t'
  else none

/-- String scanner, positioned after the opening quote, mirroring the strict
`py_scanstring`: literal characters up to the closing quote, backslash
escapes, `\uXXXX` with surrogate-pair recombination, and a literal control
character is an error.  Lean characters are unicode scalar values, so the
(never serialized) lone-surrogate case is also an error here. -/
def parseStr : Nat → List Char → Option ((List Char) × List Char)
  | 0, _ => none
  | _ + 1, [] => none
  | fuel + 1, c :: rest =>
    if c = '"' then some ([], rest)
    else if c = '\\' then
      match rest with
      | [] => none
      | e :: rest2 =>
        if e = 'u' then
          match parseHex4 rest2 with
          | none => none
          | some (n, rest3) =>
            if 55296 ≤ n ∧ n ≤ 56319 then
              match rest3 with
              | b1 :: b2 :: rest4 =>
                if b1 = '\\' ∧ b2 = 'u' then
                  match parseHex4 rest4 with
                  | some (m, rest5) =>
                    if 56320 ≤ m ∧ m ≤ 57343 then
                      Option.map
                        (fun p => (Char.ofNat (65536 + (n - 55296) * 1024 + (m - 56320)) :: p.1, p.2))
                        (parseStr fuel rest5)
                    else none
                  | none => none
                else none
              | _ => none
            else if 56320 ≤ n ∧ n ≤ 57343 then none
            else Option.map (fun p => (Char.ofNat n :: p.1, p.2)) (parseStr fuel rest3)
        else
          match escSimple e with
          | some c2 => Option.map (fun p => (c2 :: p.1, p.2)) (parseStr fuel rest2)
          | none => none
    else if c.toNat < 32 then none
    else Option.map (fun p => (c :: p.1, p.2)) (parseStr fuel rest)

/-- Greedily consume decimal digits, extending the accumulator. -/
def parseDigits : List Char → Nat → Nat × List Char
  | [], acc => (acc, [])
  | c :: rest, acc =>
    if isDigitChar c then parseDigits rest (acc * 10 + (c.toNat - 48))
    else (acc, c :: rest)

/-- Parse an integer literal: optional minus sign then at least one digit.
The serializer only emits integers, so the fraction/exponent forms of the
scanner are not needed on its outputs. -/
def parseNum (s : List Char) : Option (Int × List Char) :=
  match s with
  | [] => none
  | c :: rest =>
    if c = '-' then
      match rest with
      | [] => none
      | d :: _ =>
        if isDigitChar d then
          some (-(((parseDigits rest 0).1 : Nat) : Int), (parseDigits rest 0).2)
        else none
    else if isDigitChar c then
      some ((((parseDigits (c :: rest) 0).1 : Nat) : Int), (parseDigits (c :: rest) 0).2)
    else none

/-- Python dict insertion `d[k] = v` on an insertion-ordered pair list: an
existing key keeps its position and gets the new value, a new key is
appended. -/
def dictInsert (ps : List ((List Char) × Json)) (k : List Char) (v : Json) :
    List ((List Char) × Json) :=
  if ps.any (fun p => p.1 == k) then
    ps.map (fun p => if p.1 == k then (p.1, v) else p)
  else ps ++ [(k, v)]

mutual

/-- Parse one JSON value at the current position (no leading whitespace),
dispatching on the first character like the `json` scanner. -/
def parseVal : Nat → List Char → Option (Json × List Char)
  | 0, _ => none
  | _ + 1, [] => none
  | fuel + 1, c :: rest =>
    if c = '"' then
      Option.map (fun p => (Json.str p.1, p.2)) (parseStr (rest.length + 1) rest)
    else if c = lbrace then
      match skipWs rest with
      | [] => none
      | c2 :: r2 =>
        if c2 = rbrace then some (Json.obj [], r2)
        else if c2 = '"' then
          match parseStr (r2.length + 1) r2 with
          | some (k, r3) =>
            match skipWs r3 with
            | [] => none
            | c3 :: r4 =>
              if c3 = ':' then
                match parseVal fuel (skipWs r4) with
                | some (v, r5) => parseObjBody fuel (dictInsert [] k v) r5
                | none => none
              else none
          | none => none
        else none
    else if c = '[' then
      match skipWs rest with
      | [] => none
      | c2 :: r2 =>
        if c2 = ']' then some (Json.arr [], r2)
        else
          match parseVal fuel (c2 :: r2) with
          | some (v, r3) => parseArrBody fuel [v] r3
          | none => none
    else if c = 'n' then
      match rest with
      | 'u' :: 'l' :: 'l' :: r => some (Json.null, r)
      | _ => none
    else if c = 't' then
      match rest with
      | 'r' :: 'u' :: 'e' :: r => some (Json.bool true, r)
      | _ => none
    else if c = 'f' then
      match rest with
      | 'a' :: 'l' :: 's' :: 'e' :: r => some (Json.bool false, r)
      | _ => none
    else
      Option.map (fun p => (Json.num p.1, p.2)) (parseNum (c :: rest))

/-- Array tail loop: after a parsed element expect `]` to finish or `,` and a
further element. -/
def parseArrBody : Nat → List Json → List Char → Option (Json × List Char)
  | 0, _, _ => none
  | fuel + 1, acc, s =>
    match skipWs s with
    | [] => none
    | c :: r =>
      if c = ']' then some (Json.arr acc, r)
      else if c = ',' then
        match parseVal fuel (skipWs r) with
        | some (v, r2) => parseArrBody fuel (acc ++ [v]) r2
        | none => none
      else none

/-- Object tail loop: after a parsed member expect the closing bracket to
finish or `,`, a quoted key, `:` and a value. -/
def parseObjBody : Nat → List ((List Char) × Json) → List Char → Option (Json × List Char)
  | 0, _, _ => none
  | fuel + 1, acc, s =>
    match skipWs s with
    | [] => none
    | c :: r =>
      if c = rbrace then some (Json.obj acc, r)
      else if c = ',' then
        match skipWs r with
        | [] => none
        | c2 :: r2 =>
          if c2 = '"' then
            match parseStr (r2.length + 1) r2 with
            | some (k, r3) =>
              match skipWs r3 with
              | [] => none
              | c3 :: r4 =>
                if c3 = ':' then
                  match parseVal fuel (skipWs r4) with
                  | some (v, r5) => parseObjBody fuel (dictInsert acc k v) r5
                  | none => none
                else none
            | none => none
          else none
      else none
end

/-- `json.loads`: skip whitespace, parse one value, require that only
whitespace remains. -/
def loads (s : List Char) : Option Json :=
  match parseVal (s.length + 1) (skipWs s) with
  | some (v, r) => if skipWs r = [] then some v else none
  | none => none

/-- The acceptance test of `_select_env`, line for line the condition
`envval >= 0 and envval <= maxval and envval != exclude` of the source, with
`envval` the result of `int(envstr)` or `-1` when the conversion raised.
Note the inclusive upper bound `maxval`. -/
def accepts (maxval : Int) (exclude : Option Int) (o : Option Int) : Bool :=
  let envval := match o with | some v => v | none => -1
  decide (0 ≤ envval) && decide (envval ≤ maxval) &&
    (match exclude with | some e => decide (¬ envval = e) | none => true)

/-- The integer value `_select_env` computes from one console entry. -/
def envvalOf (o : Option Int) : Int :=
  match o with | some v => v | none => -1

/-- The prompt loop of `_select_env` over a given queue of console entries:
it keeps asking while the entry is rejected, and returns the accepted value
together with the unconsumed part of the queue.  `none` means the queue ran
out, i.e. on that (finite prefix of the) input stream the real loop is still
reprompting. -/
def select_env (maxval : Int) (exclude : Option Int) :
    List (Option Int) → Option (Int × List (Option Int))
  | [] => none
  | o :: rest =>
    if accepts maxval exclude o then some (envvalOf o, rest)
    else select_env maxval exclude rest

/-- Spaces-to-underscores, i.e. `name.replace(' ', '_')`. -/
def pyReplaceSpace (s : List Char) : List Char :=
  s.map (fun c => if c = ' ' then '_' else c)

/-- The observable effect of `_write_env_file(obj, indent, name)`: the prefix
the temporary file name is seeded with and the characters written, namely the
`json.dump` serialization with the given indent. -/
def write_env_file (obj : Json) (indent : Int) (name : List Char) :
    (List Char) × List Char :=
  (pyReplaceSpace name, dumps obj indent)

/-- A release definition summary as returned by the list endpoint. -/
structure Summary where
  name : List Char
  id : Int

/-- An HTTP response as seen through the `requests` API: success flag,
status code and parsed JSON body. -/
structure Response (α : Type) where
  ok : Bool
  status_code : Int
  body : α

/-- The detail endpoint body: the ordered environment list of the release
definition. -/
structure ReleaseDef where
  environments : List Json

/-- The `rdid` computation of `environment_files`: fold over the returned
summaries, overwriting `rdid` at every name match, so a later match wins. -/
def find_rdid (summaries : List Summary) (release_definition : List Char) : Option Int :=
  summaries.foldl
    (fun acc rd => if rd.name = release_definition then some rd.id else acc) none

/-- The characters of the key `name`. -/
def nameKey : List Char := ['n', 'a', 'm', 'e']

/-- Python `d[k]` on a JSON value: a value for a key of an object, otherwise
the lookup raises (`None` here). -/
def jGet (j : Json) (k : List Char) : Option Json :=
  match j with
  | Json.obj ps => Option.map Prod.snd (ps.find? (fun p => p.1 == k))
  | _ => none

/-- Python list subscription with an `int` index: negative indices count from
the end, anything still out of range raises (`none` here). -/
def pyIndex (xs : List Json) (i : Int) : Option Json :=
  let j := if i < 0 then i + xs.length else i
  if 0 ≤ j then xs.get? j.toNat else none

/-- Outcome of a run of `environment_files`:
`exit` a `sys.exit` with the given code, `files` the two selected indices
with the two written temporary files, `exc` an unhandled exception
(the `IndexError`/`KeyError`/`AttributeError` paths), `stuck` the prompt
loop still waiting after the whole (finite) input queue was rejected. -/
inductive EFResult where
  | exit (code : Int) : EFResult
  | files (env1 env2 : Int) (file1 file2 : (List Char) × List Char) : EFResult
  | exc : EFResult
  | stuck : EFResult

/-- Lines 119-120 of the source for one index: subscript the environment
list, subscript the environment with `name` (which must be a string for
`.replace`), and write the temporary file. -/
def write_one (envs : List Json) (i : Int) (indent : Int) :
    Option ((List Char) × List Char) :=
  match pyIndex envs i with
  | none => none
  | some e =>
    match jGet e nameKey with
    | some (Json.str nm) => some (write_env_file e indent nm)
    | some _ => none
    | none => none

/-- Write both selected environments, file 1 first. -/
def finishFiles (envs : List Json) (env1 env2 : Int) (indent : Int) : EFResult :=
  match write_one envs env1 indent with
  | none => EFResult.exc
  | some f1 =>
    match write_one envs env2 indent with
    | none => EFResult.exc
    | some f2 => EFResult.files env1 env2 f1 f2

/-- Lines 103-117 of the source: environment count dispatch and, for more
than two environments, the printing of the menu (which raises on an
environment without a `name` key) followed by the two prompt loops drawing
from the same console queue. -/
def efSelection (envs : List Json) (json_indent : Int)
    (inputs : List (Option Int)) : EFResult :=
  if envs.length < 2 then EFResult.exit 2
  else if envs.length = 2 then finishFiles envs 0 1 json_indent
  else if envs.any (fun e => (jGet e nameKey).isNone) then EFResult.exc
  else
    match select_env (Int.ofNat envs.length) none inputs with
    | none => EFResult.stuck
    | some (env1, rest) =>
      match select_env (Int.ofNat envs.length) (some env1) rest with
      | none => EFResult.stuck
      | some (env2, _) => finishFiles envs env1 env2 json_indent

/-- Lines 97-103 of the source: the second GET request and its `ok` check. -/
def efAfterDetail (response : Response ReleaseDef) (json_indent : Int)
    (inputs : List (Option Int)) : EFResult :=
  if !response.ok then EFResult.exit response.status_code
  else efSelection response.body.environments json_indent inputs

/-- Lines 87-97 of the source past the listing: not-found check, then the
detail request for the found id. -/
def efAfterList (rdid : Option Int) (server : Int → Response ReleaseDef)
    (json_indent : Int) (inputs : List (Option Int)) : EFResult :=
  match rdid with
  | none => EFResult.exit 1
  | some i => efAfterDetail (server i) json_indent inputs

/-- `environment_files(username, PAT_token, account, project,
release_definition, json_indent)`.  The two GET requests are abstracted:
`listResp` is the response of the list endpoint and `server i` the response
of the detail endpoint for a requested definition id `i` — quantifying over
`server` expresses which id (if any) the second request uses.  The console
is the queue `inputs`.  Authentication and URI formatting only feed the
external HTTP library and have no further observable effect. -/
def environment_files (listResp : Response (List Summary))
    (release_definition : List Char) (server : Int → Response ReleaseDef)
    (json_indent : Int) (inputs : List (Option Int)) : EFResult :=
  if !listResp.ok then EFResult.exit listResp.status_code
  else efAfterList (find_rdid listResp.body release_definition) server
    json_indent inputs

/-- The fixed path `\Beyond Compare 4\BCompare.exe` appended to each
program-files directory by `_get_diff_exe` (Windows separators). -/
def bcTail : List Char :=
  '\\' :: ('B' :: 'e' :: 'y' :: 'o' :: 'n' :: 'd' :: ' ' :: 'C' :: 'o' :: 'm' ::
    'p' :: 'a' :: 'r' :: 'e' :: ' ' :: '4' :: '\\' :: ('B' :: 'C' :: 'o' :: 'm' ::
    'p' :: 'a' :: 'r' :: 'e' :: '.' :: 'e' :: 'x' :: 'e' :: []))

/-- `_get_diff_exe()`: probe the three candidate paths built from the
`ProgramFiles`, `ProgramFiles(x86)` and `ProgramW6432` directories and return
the first existing one.  `isfile` abstracts `os.path.isfile`. -/
def get_diff_exe (pf pf86 pw64 : List Char) (isfile : List Char → Bool) :
    Option (List Char) :=
  [pf ++ bcTail, pf86 ++ bcTail, pw64 ++ bcTail].find? isfile

/-- Result of resolving the comparison executable in `__main__`. -/
inductive DiffResolution where
  | use (path : List Char) : DiffResolution
  | exit3 : DiffResolution

/-- Probe branch of `__main__`: use the probed path, `sys.exit(3)` when no
candidate exists. -/
def resolveProbe (pf pf86 pw64 : List Char) (isfile : List Char → Bool) :
    DiffResolution :=
  match get_diff_exe pf pf86 pw64 isfile with
  | some p => DiffResolution.use p
  | none => DiffResolution.exit3

/-- Lines 165-170 of the source: `if options.bc:` takes the supplied path,
otherwise probe.  `options.bc` of the unset flag is `None`; a supplied empty
string is falsy, so it also falls through to probing. -/
def resolve_diff_exe (bc : Option (List Char)) (pf pf86 pw64 : List Char)
    (isfile : List Char → Bool) : DiffResolution :=
  match bc with
  | some s => if s.isEmpty then resolveProbe pf pf86 pw64 isfile else DiffResolution.use s
  | none => resolveProbe pf pf86 pw64 isfile

/-- Does every environment of the list carry a string-valued `name` member
(as the API schema guarantees)?  On such lists the menu printing and the
`.replace` on the name cannot raise. -/
def envsNamed (envs : List Json) : Bool :=
  envs.all (fun e =>
    match jGet e nameKey with
    | some (Json.str _) => true
    | _ => false)

theorem charToNat_ofNat {n : Nat} (h : n.isValidChar) : (Char.ofNat n).toNat = n := by
  rw [Char.ofNat, dif_pos h]; rfl

theorem char_eq_of_toNat_eq {c d : Char} (h : c.toNat = d.toNat) : c = d :=
  Char.ext (UInt32.toNat.inj h)

theorem char_ne_of_toNat_ne {c d : Char} (h : ¬ c.toNat = d.toNat) : ¬ c = d :=
  fun hc => h (congrArg Char.toNat hc)

theorem char_valid (c : Char) :
    c.toNat < 55296 ∨ (57343 < c.toNat ∧ c.toNat < 1114112) := c.valid

theorem toNat_digitChar {n : Nat} (h : n < 10) : (digitChar n).toNat = 48 + n := by
  unfold digitChar
  exact charToNat_ofNat (Or.inl (by omega))

theorem toNat_hexChar {n : Nat} (h : n < 16) :
    (hexChar n).toNat = if n < 10 then 48 + n else 87 + n := by
  unfold hexChar
  split
  · exact charToNat_ofNat (Or.inl (by omega))
  · exact charToNat_ofNat (Or.inl (by omega))

theorem isWsChar_iff (c : Char) :
    isWsChar c = true ↔ (c.toNat = 32 ∨ c.toNat = 9 ∨ c.toNat = 10 ∨ c.toNat = 13) := by
  unfold isWsChar
  constructor
  · intro h
    rcases Bool.or_eq_true_iff.mp h with h | h
    · rcases Bool.or_eq_true_iff.mp h with h | h
      · rcases Bool.or_eq_true_iff.mp h with h | h
        · exact Or.inl (congrArg Char.toNat (of_decide_eq_true h))
        · exact Or.inr (Or.inl (congrArg Char.toNat (of_decide_eq_true h)))
      · exact Or.inr (Or.inr (Or.inl (congrArg Char.toNat (of_decide_eq_true h))))
    · exact Or.inr (Or.inr (Or.inr (congrArg Char.toNat (of_decide_eq_true h))))
  · intro h
    rcases h with h | h | h | h
    · have : c = ' ' := char_eq_of_toNat_eq h
      simp [this]
    · have : c = Char.ofNat 9 := char_eq_of_toNat_eq (by rw [h]; rfl)
      simp [this]
    · have : c = '\n' := char_eq_of_toNat_eq h
      simp [this]
    · have : c = Char.ofNat 13 := char_eq_of_toNat_eq (by rw [h]; rfl)
      simp [this]

theorem isWsChar_false {c : Char}
    (h : ¬ c.toNat = 32) (h9 : ¬ c.toNat = 9) (h10 : ¬ c.toNat = 10)
    (h13 : ¬ c.toNat = 13) : isWsChar c = false := by
  cases hb : isWsChar c
  · rfl
  · rcases (isWsChar_iff c).mp hb with hh | hh | hh | hh <;> omega

theorem isDigitChar_iff (c : Char) :
    isDigitChar c = true ↔ (48 ≤ c.toNat ∧ c.toNat ≤ 57) := by
  unfold isDigitChar
  exact decide_eq_true_iff

theorem isDigitChar_digitChar {n : Nat} (h : n < 10) :
    isDigitChar (digitChar n) = true := by
  rw [isDigitChar_iff, toNat_digitChar h]
  omega

theorem isDigitChar_false_of_toNat {c : Char}
    (h : ¬ (48 ≤ c.toNat ∧ c.toNat ≤ 57)) : isDigitChar c = false := by
  cases hb : isDigitChar c
  · rfl
  · exact absurd ((isDigitChar_iff c).mp hb) h

theorem hexVal_hexChar {n : Nat} (h : n < 16) : hexVal (hexChar n) = some n := by
  unfold hexVal
  rw [toNat_hexChar h]
  by_cases h10 : n < 10
  · rw [if_pos h10, if_pos (by omega)]
    congr 1
    omega
  · rw [if_neg h10, if_neg (by omega), if_pos (by omega)]
    congr 1
    omega

theorem parseHex4_hex4 {n : Nat} (h : n < 65536) (s : List Char) :
    parseHex4 (hex4 n ++ s) = some (n, s) := by
  have e1 : hexVal (hexChar (n / 4096 % 16)) = some (n / 4096 % 16) :=
    hexVal_hexChar (by omega)
  have e2 : hexVal (hexChar (n / 256 % 16)) = some (n / 256 % 16) :=
    hexVal_hexChar (by omega)
  have e3 : hexVal (hexChar (n / 16 % 16)) = some (n / 16 % 16) :=
    hexVal_hexChar (by omega)
  have e4 : hexVal (hexChar (n % 16)) = some (n % 16) :=
    hexVal_hexChar (by omega)
  unfold hex4 parseHex4
  simp only [List.cons_append, List.nil_append, e1, e2, e3, e4]
  congr 2
  omega

/-- Is the suffix safe to follow a number literal, i.e. does it not start
with a further digit the greedy scanner would swallow? -/
def digitSafe : List Char → Bool
  | [] => true
  | c :: _ => !isDigitChar c

theorem parseDigits_cons (c : Char) (rest : List Char) (acc : Nat) :
    parseDigits (c :: rest) acc =
      if isDigitChar c then parseDigits rest (acc * 10 + (c.toNat - 48))
      else (acc, c :: rest) := rfl

theorem natDigits_shape (m : Nat) :
    ∃ d t, d < 10 ∧ natDigits m = digitChar d :: t := by
  induction m using Nat.strong_induction_on with
  | _ m ih =>
    rw [natDigits]
    by_cases h : m < 10
    · exact ⟨m, [], h, by rw [dif_pos h]⟩
    · obtain ⟨d, t, hd, ht⟩ := ih (m / 10) (Nat.div_lt_self (by omega) (by omega))
      exact ⟨d, t ++ [digitChar (m % 10)], hd, by rw [dif_neg h, ht]; rfl⟩

theorem parseDigits_natDigits (m : Nat) : ∀ acc s,
    parseDigits (natDigits m ++ s) acc =
      parseDigits s (acc * 10 ^ (natDigits m).length + m) := by
  induction m using Nat.strong_induction_on with
  | _ m ih =>
    intro acc s
    by_cases h : m < 10
    · rw [natDigits, dif_pos h]
      simp only [List.singleton_append, List.length_singleton]
      rw [parseDigits_cons, if_pos (isDigitChar_digitChar h), toNat_digitChar h,
        pow_one]
      congr 1
      omega
    · have hlt : m / 10 < m := Nat.div_lt_self (by omega) (by omega)
      have hlen : (natDigits m).length = (natDigits (m / 10)).length + 1 := by
        conv_lhs => rw [natDigits, dif_neg h]
        rw [List.length_append, List.length_singleton]
      conv_lhs => rw [natDigits, dif_neg h]
      rw [List.append_assoc, List.singleton_append, ih (m / 10) hlt]
      rw [parseDigits_cons, if_pos (isDigitChar_digitChar (by omega : m % 10 < 10)),
        toNat_digitChar (by omega : m % 10 < 10)]
      rw [hlen, pow_succ]
      congr 1
      have h48 : 48 + m % 10 - 48 = m % 10 := by omega
      rw [h48]
      calc (acc * 10 ^ (natDigits (m / 10)).length + m / 10) * 10 + m % 10
          = acc * (10 ^ (natDigits (m / 10)).length * 10) + (m / 10 * 10 + m % 10) := by
            ring
        _ = acc * (10 ^ (natDigits (m / 10)).length * 10) + m := by
            congr 1
            omega

theorem parseDigits_stop {s : List Char} (h : digitSafe s = true) (acc : Nat) :
    parseDigits s acc = (acc, s) := by
  cases s with
  | nil => rfl
  | cons c t =>
    have hc : isDigitChar c = false := by simpa [digitSafe] using h
    rw [parseDigits_cons, if_neg (by simp [hc])]

theorem parseDigits_full {m : Nat} {s : List Char} (h : digitSafe s = true) :
    parseDigits (natDigits m ++ s) 0 = (m, s) := by
  rw [parseDigits_natDigits, parseDigits_stop h]
  norm_num

theorem parseNum_intStr (n : Int) {s : List Char} (h : digitSafe s = true) :
    parseNum (intStr n ++ s) = some (n, s) := by
  by_cases hn : n < 0
  · obtain ⟨d, t, hd, ht⟩ := natDigits_shape (-n).toNat
    rw [intStr, if_pos hn, List.cons_append, ht, List.cons_append]
    simp only [parseNum, ite_true, eq_self_iff_true, if_pos (isDigitChar_digitChar hd)]
    rw [← List.cons_append, ← ht, parseDigits_full h]
    have hnn : ((-n).toNat : Int) = -n := Int.toNat_of_nonneg (by omega)
    rw [hnn]
    norm_num
  · obtain ⟨d, t, hd, ht⟩ := natDigits_shape n.toNat
    have hne : ¬ digitChar d = '-' := by
      apply char_ne_of_toNat_ne
      rw [toNat_digitChar hd]
      intro hcontra
      have h45 : (Char.toNat '-') = 45 := rfl
      omega
    rw [intStr, if_neg hn, ht, List.cons_append]
    simp only [parseNum, if_neg hne, if_pos (isDigitChar_digitChar hd)]
    rw [← List.cons_append, ← ht, parseDigits_full h]
    have hnn : (n.toNat : Int) = n := Int.toNat_of_nonneg (by omega)
    rw [hnn]

/-- Every character of the list is JSON whitespace. -/
def wsOnly (l : List Char) : Bool := l.all isWsChar

theorem skipWs_cons (c : Char) (s : List Char) :
    skipWs (c :: s) = if isWsChar c then skipWs s else c :: s := rfl

theorem skipWs_cons_true {c : Char} (h : isWsChar c = true) (s : List Char) :
    skipWs (c :: s) = skipWs s := by
  rw [skipWs_cons, if_pos h]

theorem skipWs_cons_false {c : Char} (h : isWsChar c = false) (s : List Char) :
    skipWs (c :: s) = c :: s := by
  rw [skipWs_cons, if_neg (by simp [h])]

theorem skipWs_append_ws {w : List Char} (h : ∀ c ∈ w, isWsChar c = true)
    (s : List Char) : skipWs (w ++ s) = skipWs s := by
  induction w with
  | nil => rfl
  | cons c t ih =>
    rw [List.cons_append, skipWs_cons_true (h c (List.mem_cons_self c t))]
    exact ih (fun d hd => h d (List.mem_cons_of_mem c hd))

theorem indRepeat_ws {ind : List Char} (h : wsOnly ind = true) (lvl : Nat) :
    ∀ c ∈ indRepeat ind lvl, isWsChar c = true := by
  induction lvl with
  | zero => intro c hc; cases hc
  | succ l ih =>
    intro c hc
    unfold indRepeat at hc
    rcases List.mem_append.mp hc with hc | hc
    · exact List.all_eq_true.mp h c hc
    · exact ih c hc

theorem skipWs_nlind {ind : List Char} (h : wsOnly ind = true) (lvl : Nat)
    (s : List Char) : skipWs (nlind ind lvl ++ s) = skipWs s := by
  unfold nlind
  rw [List.cons_append, skipWs_cons_true (by rfl), skipWs_append_ws (indRepeat_ws h lvl)]

theorem escChar_length_pos (c : Char) : 1 ≤ (escChar c).length := by
  unfold escChar
  split_ifs <;> simp

theorem encBody_length (cs : List Char) : cs.length ≤ (encBody cs).length := by
  induction cs with
  | nil => simp [encBody]
  | cons c t ih =>
    have he : encBody (c :: t) = escChar c ++ encBody t := rfl
    rw [he, List.length_append, List.length_cons]
    have := escChar_length_pos c
    omega

theorem parseStr_quote (f : Nat) (rest : List Char) :
    parseStr (f + 1) ('"' :: rest) = some ([], rest) := rfl

theorem parseStr_esc_quote (f : Nat) (rest : List Char) :
    parseStr (f + 1) ('\\' :: '"' :: rest) =
      Option.map (fun p => ('"' :: p.1, p.2)) (parseStr f rest) := rfl

theorem parseStr_esc_bslash (f : Nat) (rest : List Char) :
    parseStr (f + 1) ('\\' :: '\\' :: rest) =
      Option.map (fun p => ('\\' :: p.1, p.2)) (parseStr f rest) := rfl

theorem parseStr_esc_b (f : Nat) (rest : List Char) :
    parseStr (f + 1) ('\\' :: 'b' :: rest) =
      Option.map (fun p => (Char.ofNat 8 :: p.1, p.2)) (parseStr f rest) := rfl

theorem parseStr_esc_f (f : Nat) (rest : List Char) :
    parseStr (f + 1) ('\\' :: 'f' :: rest) =
      Option.map (fun p => (Char.ofNat 12 :: p.1, p.2)) (parseStr f rest) := rfl

theorem parseStr_esc_n (f : Nat) (rest : List Char) :
    parseStr (f + 1) ('\\' :: 'n' :: rest) =
      Option.map (fun p => ('\n' :: p.1, p.2)) (parseStr f rest) := rfl

theorem parseStr_esc_r (f : Nat) (rest : List Char) :
    parseStr (f + 1) ('\\' :: 'r' :: rest) =
      Option.map (fun p => (Char.ofNat 13 :: p.1, p.2)) (parseStr f rest) := rfl

theorem parseStr_esc_t (f : Nat) (rest : List Char) :
    parseStr (f + 1) ('\\' :: 't' :: rest) =
      Option.map (fun p => ('\t' :: p.1, p.2)) (parseStr f rest) := rfl

theorem parseStr_printable (f : Nat) (c : Char) (rest : List Char)
    (h1 : ¬ c = '"') (h2 : ¬ c = '\\') (h3 : ¬ c.toNat < 32) :
    parseStr (f + 1) (c :: rest) =
      Option.map (fun p => (c :: p.1, p.2)) (parseStr f rest) := by
  simp only [parseStr, if_neg h1, if_neg h2, if_neg h3]

theorem parseStr_u (f : Nat) (rest : List Char) :
    parseStr (f + 1) ('\\' :: 'u' :: rest) =
      (match parseHex4 rest with
       | none => none
       | some (n, rest3) =>
         if 55296 ≤ n ∧ n ≤ 56319 then
           (match rest3 with
            | b1 :: b2 :: rest4 =>
              if b1 = '\\' ∧ b2 = 'u' then
                (match parseHex4 rest4 with
                 | some (m, rest5) =>
                   if 56320 ≤ m ∧ m ≤ 57343 then
                     Option.map (fun p =>
                       (Char.ofNat (65536 + (n - 55296) * 1024 + (m - 56320)) :: p.1, p.2))
                       (parseStr f rest5)
                   else none
                 | none => none)
              else none
            | _ => none)
         else if 56320 ≤ n ∧ n ≤ 57343 then none
         else Option.map (fun p => (Char.ofNat n :: p.1, p.2)) (parseStr f rest3)) := rfl

theorem parseStr_escChar (c : Char) (f : Nat) (r : List Char) :
    parseStr (f + 1) (escChar c ++ r) =
      Option.map (fun p => (c :: p.1, p.2)) (parseStr f r) := by
  unfold escChar
  split_ifs with h1 h2 h3 h4 h5 h6 h7 h8 h9
  · subst h1
    rw [List.cons_append, List.singleton_append, parseStr_esc_quote]
  · subst h2
    rw [List.cons_append, List.singleton_append, parseStr_esc_bslash]
  · have hc : Char.ofNat 8 = c := char_eq_of_toNat_eq (by rw [h3]; rfl)
    rw [List.cons_append, List.singleton_append, parseStr_esc_b, hc]
  · have hc : Char.ofNat 12 = c := char_eq_of_toNat_eq (by rw [h4]; rfl)
    rw [List.cons_append, List.singleton_append, parseStr_esc_f, hc]
  · have hc : ('\n' : Char) = c := char_eq_of_toNat_eq (by rw [h5]; rfl)
    rw [List.cons_append, List.singleton_append, parseStr_esc_n, hc]
  · have hc : Char.ofNat 13 = c := char_eq_of_toNat_eq (by rw [h6]; rfl)
    rw [List.cons_append, List.singleton_append, parseStr_esc_r, hc]
  · have hc : ('\t' : Char) = c := char_eq_of_toNat_eq (by rw [h7]; rfl)
    rw [List.cons_append, List.singleton_append, parseStr_esc_t, hc]
  · rw [List.singleton_append]
    exact parseStr_printable f c r h1 h2 (by omega)
  · rcases char_valid c with hv | hv
    · rw [List.cons_append, List.cons_append, parseStr_u]
      simp only [parseHex4_hex4 h9 r,
        if_neg (by omega : ¬ (55296 ≤ c.toNat ∧ c.toNat ≤ 56319)),
        if_neg (by omega : ¬ (56320 ≤ c.toNat ∧ c.toNat ≤ 57343)), Char.ofNat_toNat]
    · rw [List.cons_append, List.cons_append, parseStr_u]
      simp only [parseHex4_hex4 h9 r,
        if_neg (by omega : ¬ (55296 ≤ c.toNat ∧ c.toNat ≤ 56319)),
        if_neg (by omega : ¬ (56320 ≤ c.toNat ∧ c.toNat ≤ 57343)), Char.ofNat_toNat]
  · rcases char_valid c with hv | hv
    · omega
    · have hhi : 55296 + (c.toNat - 65536) / 1024 < 65536 := by omega
      have hlo : 56320 + (c.toNat - 65536) % 1024 < 65536 := by omega
      simp only [List.cons_append, List.append_assoc, List.nil_append]
      rw [parseStr_u]
      simp only [parseHex4_hex4 hhi,
        if_pos (by omega : 55296 ≤ 55296 + (c.toNat - 65536) / 1024 ∧
          55296 + (c.toNat - 65536) / 1024 ≤ 56319)]
      simp only [Char.reduceEq, and_self, if_true, ite_true, parseHex4_hex4 hlo,
        if_pos (by omega : 56320 ≤ 56320 + (c.toNat - 65536) % 1024 ∧
          56320 + (c.toNat - 65536) % 1024 ≤ 57343)]
      have harith : 65536 + (55296 + (c.toNat - 65536) / 1024 - 55296) * 1024 +
          (56320 + (c.toNat - 65536) % 1024 - 56320) = c.toNat := by omega
      rw [harith, Char.ofNat_toNat]

theorem parseStr_encBody (cs : List Char) : ∀ fuel s, cs.length < fuel →
    parseStr fuel (encBody cs ++ ('"' :: s)) = some (cs, s) := by
  induction cs with
  | nil =>
    intro fuel s hf
    match fuel, hf with
    | f + 1, _ =>
      have he : encBody [] = [] := rfl
      rw [he, List.nil_append, parseStr_quote]
  | cons c t ih =>
    intro fuel s hf
    match fuel, hf with
    | f + 1, hf =>
      have he : encBody (c :: t) = escChar c ++ encBody t := rfl
      rw [he, List.append_assoc, parseStr_escChar c f,
        ih f s (by simpa using Nat.lt_of_succ_lt_succ hf)]
      rfl

theorem sizeJ_pos (v : Json) : 1 ≤ sizeJ v := by
  cases v <;> simp [sizeJ]

theorem parseVal_quote (f : Nat) (rest : List Char) :
    parseVal (f + 1) ('"' :: rest) =
      Option.map (fun p => (Json.str p.1, p.2)) (parseStr (rest.length + 1) rest) := rfl

theorem parseVal_null (f : Nat) (r : List Char) :
    parseVal (f + 1) ('n' :: 'u' :: 'l' :: 'l' :: r) = some (Json.null, r) := rfl

theorem parseVal_boolT (f : Nat) (r : List Char) :
    parseVal (f + 1) ('t' :: 'r' :: 'u' :: 'e' :: r) = some (Json.bool true, r) := rfl

theorem parseVal_boolF (f : Nat) (r : List Char) :
    parseVal (f + 1) ('f' :: 'a' :: 'l' :: 's' :: 'e' :: r) =
      some (Json.bool false, r) := rfl

theorem parseVal_emptyArr (f : Nat) (s : List Char) :
    parseVal (f + 1) ('[' :: ']' :: s) = some (Json.arr [], s) := rfl

theorem parseVal_emptyObj (f : Nat) (s : List Char) :
    parseVal (f + 1) (lbrace :: rbrace :: s) = some (Json.obj [], s) := rfl

theorem parseVal_lbracket (f : Nat) (rest : List Char) :
    parseVal (f + 1) ('[' :: rest) =
      (match skipWs rest with
       | [] => none
       | c2 :: r2 =>
         if c2 = ']' then some (Json.arr [], r2)
         else
           match parseVal f (c2 :: r2) with
           | some (v, r3) => parseArrBody f [v] r3
           | none => none) := rfl

theorem parseVal_lbrace (f : Nat) (rest : List Char) :
    parseVal (f + 1) (lbrace :: rest) =
      (match skipWs rest with
       | [] => none
       | c2 :: r2 =>
         if c2 = rbrace then some (Json.obj [], r2)
         else if c2 = '"' then
           match parseStr (r2.length + 1) r2 with
           | some (k, r3) =>
             (match skipWs r3 with
              | [] => none
              | c3 :: r4 =>
                if c3 = ':' then
                  match parseVal f (skipWs r4) with
                  | some (v, r5) => parseObjBody f (dictInsert [] k v) r5
                  | none => none
                else none)
           | none => none
         else none) := rfl

theorem parseVal_num (f : Nat) (c : Char) (rest : List Char)
    (h1 : ¬ c = '"') (h2 : ¬ c = lbrace) (h3 : ¬ c = '[') (h4 : ¬ c = 'n')
    (h5 : ¬ c = 't') (h6 : ¬ c = 'f') :
    parseVal (f + 1) (c :: rest) =
      Option.map (fun p => (Json.num p.1, p.2)) (parseNum (c :: rest)) := by
  simp only [parseVal, if_neg h1, if_neg h2, if_neg h3, if_neg h4, if_neg h5, if_neg h6]

theorem parseArrBody_step (f : Nat) (acc : List Json) (s : List Char) :
    parseArrBody (f + 1) acc s =
      (match skipWs s with
       | [] => none
       | c :: r =>
         if c = ']' then some (Json.arr acc, r)
         else if c = ',' then
           match parseVal f (skipWs r) with
           | some (v, r2) => parseArrBody f (acc ++ [v]) r2
           | none => none
         else none) := rfl

theorem parseObjBody_step (f : Nat) (acc : List ((List Char) × Json)) (s : List Char) :
    parseObjBody (f + 1) acc s =
      (match skipWs s with
       | [] => none
       | c :: r =>
         if c = rbrace then some (Json.obj acc, r)
         else if c = ',' then
           match skipWs r with
           | [] => none
           | c2 :: r2 =>
             if c2 = '"' then
               match parseStr (r2.length + 1) r2 with
               | some (k, r3) =>
                 (match skipWs r3 with
                  | [] => none
                  | c3 :: r4 =>
                    if c3 = ':' then
                      match parseVal f (skipWs r4) with
                      | some (v, r5) => parseObjBody f (dictInsert acc k v) r5
                      | none => none
                    else none)
               | none => none
             else none
         else none) := rfl

theorem dump_head (ind : List Char) (lvl : Nat) (v : Json) :
    ∃ c0 t0, dumpVal ind lvl v = c0 :: t0 ∧ isWsChar c0 = false ∧ ¬ c0 = ']' := by
  cases v with
  | null => exact ⟨'n', _, rfl, rfl, by decide⟩
  | bool b => cases b with
    | true => exact ⟨'t', _, rfl, rfl, by decide⟩
    | false => exact ⟨'f', _, rfl, rfl, by decide⟩
  | num n =>
    by_cases hn : n < 0
    · refine ⟨'-', natDigits (-n).toNat, ?_, rfl, by decide⟩
      show intStr n = _
      rw [intStr, if_pos hn]
    · obtain ⟨d, t, hd, ht⟩ := natDigits_shape n.toNat
      refine ⟨digitChar d, t, ?_, ?_, ?_⟩
      · show intStr n = _
        rw [intStr, if_neg hn, ht]
      · exact isWsChar_false (by rw [toNat_digitChar hd]; omega)
          (by rw [toNat_digitChar hd]; omega) (by rw [toNat_digitChar hd]; omega)
          (by rw [toNat_digitChar hd]; omega)
      · apply char_ne_of_toNat_ne
        rw [toNat_digitChar hd]
        have h93 : (']' : Char).toNat = 93 := rfl
        omega
  | str s => exact ⟨'"', _, rfl, rfl, by decide⟩
  | arr xs => cases xs with
    | nil => exact ⟨'[', _, rfl, rfl, by decide⟩
    | cons x t => exact ⟨'[', _, rfl, rfl, by decide⟩
  | obj ps => cases ps with
    | nil => exact ⟨lbrace, _, rfl, rfl, by decide⟩
    | cons p t => exact ⟨lbrace, _, rfl, rfl, by decide⟩

theorem skipWs_dump (ind : List Char) (lvl : Nat) (v : Json) (t : List Char) :
    skipWs (dumpVal ind lvl v ++ t) = dumpVal ind lvl v ++ t := by
  obtain ⟨c0, t0, he, hws, _⟩ := dump_head ind lvl v
  rw [he, List.cons_append, skipWs_cons_false hws]

theorem digitSafe_items (ind : List Char) (lvl lvl2 : Nat) (xs : List Json)
    (r : List Char) :
    digitSafe (dumpItems ind lvl xs ++ (nlind ind lvl2 ++ r)) = true := by
  cases xs with
  | nil =>
    have he : dumpItems ind lvl ([] : List Json) = [] := rfl
    rw [he, List.nil_append]
    unfold nlind
    rw [List.cons_append]
    rfl
  | cons x t =>
    have he : dumpItems ind lvl (x :: t) =
      ',' :: (nlind ind lvl ++ (dumpVal ind lvl x ++ dumpItems ind lvl t)) := rfl
    rw [he, List.cons_append]
    rfl

theorem digitSafe_pairs (ind : List Char) (lvl lvl2 : Nat)
    (ps : List ((List Char) × Json)) (r : List Char) :
    digitSafe (dumpPairs ind lvl ps ++ (nlind ind lvl2 ++ r)) = true := by
  cases ps with
  | nil =>
    have he : dumpPairs ind lvl ([] : List ((List Char) × Json)) = [] := rfl
    rw [he, List.nil_append]
    unfold nlind
    rw [List.cons_append]
    rfl
  | cons p t =>
    have he : dumpPairs ind lvl (p :: t) =
      ',' :: (nlind ind lvl ++ (encStr p.1 ++ (':' :: ' ' ::
        (dumpVal ind lvl p.2 ++ dumpPairs ind lvl t)))) := rfl
    rw [he, List.cons_append]
    rfl

theorem dictInsert_nil (k : List Char) (v : Json) :
    dictInsert [] k v = [(k, v)] := rfl

theorem freshIn_iff (k : List Char) (ps : List ((List Char) × Json)) :
    freshIn k ps = true ↔ ∀ p ∈ ps, ¬ p.1 = k := by
  induction ps with
  | nil => simp [freshIn]
  | cons p t ih =>
    unfold freshIn
    rw [Bool.and_eq_true, decide_eq_true_iff, ih]
    constructor
    · rintro ⟨h1, h2⟩ q hq
      rcases List.mem_cons.mp hq with hq | hq
      · rw [hq]; exact h1
      · exact h2 q hq
    · intro h
      exact ⟨h p (List.mem_cons_self p t), fun q hq => h q (List.mem_cons_of_mem p hq)⟩

theorem dictInsert_fresh {k : List Char} {ps : List ((List Char) × Json)}
    (h : freshIn k ps = true) (v : Json) : dictInsert ps k v = ps ++ [(k, v)] := by
  unfold dictInsert
  rw [if_neg]
  intro hany
  obtain ⟨p, hp, hpk⟩ := List.any_eq_true.mp hany
  exact absurd (beq_iff_eq.mp hpk) ((freshIn_iff k ps).mp h p hp)

/-- Every key of `ps` is absent from `acc`: the members still to be parsed
never collide with the already inserted ones. -/
def allFreshP (acc ps : List ((List Char) × Json)) : Bool :=
  ps.all (fun p => freshIn p.1 acc)

theorem freshIn_cons (k : List Char) (p : (List Char) × Json)
    (t : List ((List Char) × Json)) :
    freshIn k (p :: t) = ((decide (¬ p.1 = k)) && freshIn k t) := rfl

theorem freshIn_append (k : List Char) (l1 l2 : List ((List Char) × Json)) :
    freshIn k (l1 ++ l2) = (freshIn k l1 && freshIn k l2) := by
  induction l1 with
  | nil => simp [freshIn]
  | cons p t ih =>
    rw [List.cons_append, freshIn_cons, freshIn_cons, ih, Bool.and_assoc]

theorem allFreshP_single {k : List Char} {ps : List ((List Char) × Json)}
    (h : freshIn k ps = true) (v : Json) : allFreshP [(k, v)] ps = true := by
  rw [allFreshP, List.all_eq_true]
  intro p hp
  have hk := (freshIn_iff k ps).mp h p hp
  unfold freshIn freshIn
  simp only [Bool.and_true]
  exact decide_eq_true (fun he => hk he.symm)

theorem allFreshP_snoc {acc : List ((List Char) × Json)} {k : List Char}
    {v : Json} {ps : List ((List Char) × Json)}
    (h1 : allFreshP acc ps = true) (h2 : freshIn k ps = true) :
    allFreshP (acc ++ [(k, v)]) ps = true := by
  rw [allFreshP, List.all_eq_true]
  intro p hp
  rw [freshIn_append, Bool.and_eq_true]
  refine ⟨List.all_eq_true.mp h1 p hp, ?_⟩
  have hk := (freshIn_iff k ps).mp h2 p hp
  unfold freshIn freshIn
  simp only [Bool.and_true]
  exact decide_eq_true (fun he => hk he.symm)

theorem size_le_dump (n : Nat) :
    (∀ v ind lvl, sizeJ v ≤ n → sizeJ v ≤ (dumpVal ind lvl v).length) ∧
    (∀ xs ind lvl, sizeL xs ≤ n → sizeL xs ≤ (dumpItems ind lvl xs).length) ∧
    (∀ ps ind lvl, sizeP ps ≤ n → sizeP ps ≤ (dumpPairs ind lvl ps).length) := by
  induction n with
  | zero =>
    refine ⟨fun v ind lvl h => absurd h (by have := sizeJ_pos v; omega), ?_, ?_⟩
    · intro xs ind lvl h
      omega
    · intro ps ind lvl h
      omega
  | succ n ih =>
    obtain ⟨ih1, ih2, ih3⟩ := ih
    refine ⟨?_, ?_, ?_⟩
    · intro v ind lvl h
      cases v with
      | null => simp [sizeJ, dumpVal]
      | bool b => cases b <;> simp [sizeJ, dumpVal]
      | num m =>
        have hlen : 1 ≤ (intStr m).length := by
          by_cases hm : m < 0
          · rw [intStr, if_pos hm]
            simp
          · obtain ⟨d, t, hd, ht⟩ := natDigits_shape m.toNat
            rw [intStr, if_neg hm, ht]
            simp
        simp only [sizeJ, dumpVal]
        omega
      | str s => simp [sizeJ, dumpVal, encStr]
      | arr xs => cases xs with
        | nil => simp [sizeJ, sizeL, dumpVal]
        | cons x t =>
          have hx : sizeJ x ≤ n := by
            have h1 := sizeJ_pos x
            simp only [sizeJ, sizeL] at h
            omega
          have ht : sizeL t ≤ n := by
            have h1 := sizeJ_pos x
            simp only [sizeJ, sizeL] at h
            omega
          have b1 := ih1 x ind (lvl + 1) hx
          have b2 := ih2 t ind (lvl + 1) ht
          simp only [sizeJ, sizeL, dumpVal, List.length_cons, List.length_append,
            nlind]
          omega
      | obj ps => cases ps with
        | nil => simp [sizeJ, sizeP, dumpVal]
        | cons p t =>
          have hx : sizeJ p.2 ≤ n := by
            have h1 := sizeJ_pos p.2
            simp only [sizeJ, sizeP] at h
            omega
          have ht : sizeP t ≤ n := by
            have h1 := sizeJ_pos p.2
            simp only [sizeJ, sizeP] at h
            omega
          have b1 := ih1 p.2 ind (lvl + 1) hx
          have b2 := ih3 t ind (lvl + 1) ht
          simp only [sizeJ, sizeP, dumpVal, List.length_cons, List.length_append,
            nlind]
          omega
    · intro xs ind lvl h
      cases xs with
      | nil => simp [sizeL, dumpItems]
      | cons x t =>
        have hx : sizeJ x ≤ n := by
          have h1 := sizeJ_pos x
          simp only [sizeL] at h
          omega
        have ht : sizeL t ≤ n := by
          simp only [sizeL] at h
          omega
        have b1 := ih1 x ind lvl hx
        have b2 := ih2 t ind lvl ht
        simp only [sizeL, dumpItems, List.length_cons, List.length_append, nlind]
        omega
    · intro ps ind lvl h
      cases ps with
      | nil => simp [sizeP, dumpPairs]
      | cons p t =>
        have hx : sizeJ p.2 ≤ n := by
          have h1 := sizeJ_pos p.2
          simp only [sizeP] at h
          omega
        have ht : sizeP t ≤ n := by
          simp only [sizeP] at h
          omega
        have b1 := ih1 p.2 ind lvl hx
        have b2 := ih3 t ind lvl ht
        simp only [sizeP, dumpPairs, List.length_cons, List.length_append, nlind]
        omega

theorem sizeJ_le_dump_length (v : Json) (ind : List Char) (lvl : Nat) :
    sizeJ v ≤ (dumpVal ind lvl v).length :=
  (size_le_dump (sizeJ v)).1 v ind lvl (Nat.le_refl _)

theorem parseArrBody_close (f : Nat) (acc : List Json) (s : List Char) :
    parseArrBody (f + 1) acc (']' :: s) = some (Json.arr acc, s) := rfl

theorem parseArrBody_comma (f : Nat) (acc : List Json) (r : List Char) :
    parseArrBody (f + 1) acc (',' :: r) =
      (match parseVal f (skipWs r) with
       | some (v, r2) => parseArrBody f (acc ++ [v]) r2
       | none => none) := rfl

theorem parseObjBody_close (f : Nat) (acc : List ((List Char) × Json)) (s : List Char) :
    parseObjBody (f + 1) acc (rbrace :: s) = some (Json.obj acc, s) := rfl

theorem parseObjBody_comma (f : Nat) (acc : List ((List Char) × Json)) (r : List Char) :
    parseObjBody (f + 1) acc (',' :: r) =
      (match skipWs r with
       | [] => none
       | c2 :: r2 =>
         if c2 = '"' then
           match parseStr (r2.length + 1) r2 with
           | some (k, r3) =>
             (match skipWs r3 with
              | [] => none
              | c3 :: r4 =>
                if c3 = ':' then
                  match parseVal f (skipWs r4) with
                  | some (v, r5) => parseObjBody f (dictInsert acc k v) r5
                  | none => none
                else none)
           | none => none
         else none) := rfl

theorem parseArrBody_congr (f : Nat) (acc : List Json) {s s2 : List Char}
    (h : skipWs s = skipWs s2) :
    parseArrBody (f + 1) acc s = parseArrBody (f + 1) acc s2 := by
  rw [parseArrBody_step, parseArrBody_step, h]

theorem parseObjBody_congr (f : Nat) (acc : List ((List Char) × Json))
    {s s2 : List Char} (h : skipWs s = skipWs s2) :
    parseObjBody (f + 1) acc s = parseObjBody (f + 1) acc s2 := by
  rw [parseObjBody_step, parseObjBody_step, h]

theorem parseVal_lbracket_congr (f : Nat) {rest rest2 : List Char}
    (h : skipWs rest = skipWs rest2) :
    parseVal (f + 1) ('[' :: rest) = parseVal (f + 1) ('[' :: rest2) := by
  rw [parseVal_lbracket, parseVal_lbracket, h]

theorem parseVal_lbrace_congr (f : Nat) {rest rest2 : List Char}
    (h : skipWs rest = skipWs rest2) :
    parseVal (f + 1) (lbrace :: rest) = parseVal (f + 1) (lbrace :: rest2) := by
  rw [parseVal_lbrace, parseVal_lbrace, h]

theorem parseVal_arr_elem (f : Nat) (c0 : Char) (r : List Char)
    (hws : isWsChar c0 = false) (hne : ¬ c0 = ']') :
    parseVal (f + 1) ('[' :: (c0 :: r)) =
      (match parseVal f (c0 :: r) with
       | some (v, r3) => parseArrBody f [v] r3
       | none => none) := by
  rw [parseVal_lbracket, skipWs_cons_false hws]
  show (if c0 = ']' then some (Json.arr [], r)
    else match parseVal f (c0 :: r) with
         | some (v, r3) => parseArrBody f [v] r3
         | none => none) = _
  rw [if_neg hne]

theorem parseVal_obj_first (f : Nat) (r2 : List Char) :
    parseVal (f + 1) (lbrace :: ('"' :: r2)) =
      (match parseStr (r2.length + 1) r2 with
       | some (k, r3) =>
         (match skipWs r3 with
          | [] => none
          | c3 :: r4 =>
            if c3 = ':' then
              match parseVal f (skipWs r4) with
              | some (v, r5) => parseObjBody f (dictInsert [] k v) r5
              | none => none
            else none)
       | none => none) := rfl

theorem parseVal_obj_member (f : Nat) (ind : List Char) (hind : wsOnly ind = true)
    (lvl lvl2 : Nat) (k : List Char) (v : Json) (R : List Char)
    (hv : parseVal f (dumpVal ind lvl v ++ R) = some (v, R)) :
    parseVal (f + 1)
      (lbrace :: (nlind ind lvl2 ++
        (encStr k ++ (':' :: ' ' :: (dumpVal ind lvl v ++ R))))) =
      parseObjBody f (dictInsert [] k v) R := by
  rw [parseVal_lbrace_congr f (skipWs_nlind hind lvl2 _)]
  have henc : encStr k ++ (':' :: ' ' :: (dumpVal ind lvl v ++ R)) =
      '"' :: (encBody k ++ ('"' :: (':' :: ' ' :: (dumpVal ind lvl v ++ R)))) := by
    simp [encStr, List.cons_append, List.append_assoc]
  rw [henc, parseVal_obj_first]
  rw [parseStr_encBody k _ _ (by
    simp only [List.length_append, List.length_cons]
    have := encBody_length k
    omega)]
  show (match skipWs (':' :: ' ' :: (dumpVal ind lvl v ++ R)) with
        | [] => none
        | c3 :: r4 =>
          if c3 = ':' then
            match parseVal f (skipWs r4) with
            | some (v, r5) => parseObjBody f (dictInsert [] k v) r5
            | none => none
          else none) = _
  rw [skipWs_cons_false (by rfl : isWsChar ':' = false)]
  show (match parseVal f (skipWs (' ' :: (dumpVal ind lvl v ++ R))) with
        | some (v, r5) => parseObjBody f (dictInsert [] k v) r5
        | none => none) = _
  rw [skipWs_cons_true (by rfl : isWsChar ' ' = true), skipWs_dump, hv]

theorem parseObjBody_member (f : Nat) (acc : List ((List Char) × Json))
    (ind : List Char) (hind : wsOnly ind = true) (lvl lvl2 : Nat) (k : List Char)
    (v : Json) (R : List Char)
    (hv : parseVal f (dumpVal ind lvl v ++ R) = some (v, R)) :
    parseObjBody (f + 1) acc
      (',' :: (nlind ind lvl2 ++
        (encStr k ++ (':' :: ' ' :: (dumpVal ind lvl v ++ R))))) =
      parseObjBody f (dictInsert acc k v) R := by
  rw [parseObjBody_comma, skipWs_nlind hind]
  have henc : encStr k ++ (':' :: ' ' :: (dumpVal ind lvl v ++ R)) =
      '"' :: (encBody k ++ ('"' :: (':' :: ' ' :: (dumpVal ind lvl v ++ R)))) := by
    simp [encStr, List.cons_append, List.append_assoc]
  rw [henc, skipWs_cons_false (by rfl : isWsChar '"' = false)]
  show (match parseStr
          ((encBody k ++ ('"' :: (':' :: ' ' :: (dumpVal ind lvl v ++ R)))).length + 1)
          (encBody k ++ ('"' :: (':' :: ' ' :: (dumpVal ind lvl v ++ R)))) with
        | some (k, r3) =>
          (match skipWs r3 with
           | [] => none
           | c3 :: r4 =>
             if c3 = ':' then
               match parseVal f (skipWs r4) with
               | some (v, r5) => parseObjBody f (dictInsert acc k v) r5
               | none => none
             else none)
        | none => none) = _
  rw [parseStr_encBody k _ _ (by
    simp only [List.length_append, List.length_cons]
    have := encBody_length k
    omega)]
  show (match skipWs (':' :: ' ' :: (dumpVal ind lvl v ++ R)) with
        | [] => none
        | c3 :: r4 =>
          if c3 = ':' then
            match parseVal f (skipWs r4) with
            | some (v, r5) => parseObjBody f (dictInsert acc k v) r5
            | none => none
          else none) = _
  rw [skipWs_cons_false (by rfl : isWsChar ':' = false)]
  show (match parseVal f (skipWs (' ' :: (dumpVal ind lvl v ++ R))) with
        | some (v, r5) => parseObjBody f (dictInsert acc k v) r5
        | none => none) = _
  rw [skipWs_cons_true (by rfl : isWsChar ' ' = true), skipWs_dump, hv]

theorem parse_dump_main : ∀ fuel : Nat,
    (∀ (v : Json) (ind : List Char) (lvl : Nat) (s : List Char),
      wsOnly ind = true → nodupDeep v = true → sizeJ v ≤ fuel → digitSafe s = true →
      parseVal fuel (dumpVal ind lvl v ++ s) = some (v, s)) ∧
    (∀ (xs acc : List Json) (ind : List Char) (lvl : Nat) (s : List Char),
      wsOnly ind = true → nodupDeepL xs = true → sizeL xs < fuel →
      parseArrBody fuel acc
        (dumpItems ind (lvl + 1) xs ++ (nlind ind lvl ++ (']' :: s))) =
        some (Json.arr (acc ++ xs), s)) ∧
    (∀ (ps acc : List ((List Char) × Json)) (ind : List Char) (lvl : Nat)
      (s : List Char),
      wsOnly ind = true → nodupDeepP ps = true → nodupKeysOf ps = true →
      allFreshP acc ps = true → sizeP ps < fuel →
      parseObjBody fuel acc
        (dumpPairs ind (lvl + 1) ps ++ (nlind ind lvl ++ (rbrace :: s))) =
        some (Json.obj (acc ++ ps), s)) := by
  intro fuel
  induction fuel with
  | zero =>
    refine ⟨?_, ?_, ?_⟩
    · intro v ind lvl s _ _ hsz _
      exact absurd hsz (by have := sizeJ_pos v; omega)
    · intro xs acc ind lvl s _ _ hsz
      omega
    · intro ps acc ind lvl s _ _ _ _ hsz
      omega
  | succ f ih =>
    obtain ⟨ih1, ih2, ih3⟩ := ih
    refine ⟨?_, ?_, ?_⟩
    · intro v ind lvl s hind hnd hsz hds
      cases v with
      | null =>
        have he : dumpVal ind lvl Json.null = ['n', 'u', 'l', 'l'] := rfl
        rw [he]
        simp only [List.cons_append, List.nil_append]
        exact parseVal_null f s
      | bool b =>
        cases b with
        | false =>
          have he : dumpVal ind lvl (Json.bool false) = ['f', 'a', 'l', 's', 'e'] := rfl
          rw [he]
          simp only [List.cons_append, List.nil_append]
          exact parseVal_boolF f s
        | true =>
          have he : dumpVal ind lvl (Json.bool true) = ['t', 'r', 'u', 'e'] := rfl
          rw [he]
          simp only [List.cons_append, List.nil_append]
          exact parseVal_boolT f s
      | num m =>
        by_cases hm : m < 0
        · have he : dumpVal ind lvl (Json.num m) = '-' :: natDigits (-m).toNat := by
            show intStr m = _
            rw [intStr, if_pos hm]
          rw [he, List.cons_append,
            parseVal_num f '-' _ (by decide) (by decide) (by decide) (by decide)
              (by decide) (by decide)]
          rw [show ('-' :: (natDigits (-m).toNat ++ s)) = intStr m ++ s from by
            rw [intStr, if_pos hm, List.cons_append]]
          rw [parseNum_intStr m hds]
          rfl
        · obtain ⟨d, t, hd, ht⟩ := natDigits_shape m.toNat
          have he : dumpVal ind lvl (Json.num m) = digitChar d :: t := by
            show intStr m = _
            rw [intStr, if_neg hm, ht]
          have h34 : ¬ digitChar d = '"' := char_ne_of_toNat_ne (by
            rw [toNat_digitChar hd]
            have : ('"' : Char).toNat = 34 := rfl
            omega)
          have h123 : ¬ digitChar d = lbrace := char_ne_of_toNat_ne (by
            rw [toNat_digitChar hd]
            have : lbrace.toNat = 123 := rfl
            omega)
          have h91 : ¬ digitChar d = '[' := char_ne_of_toNat_ne (by
            rw [toNat_digitChar hd]
            have : ('[' : Char).toNat = 91 := rfl
            omega)
          have h110 : ¬ digitChar d = 'n' := char_ne_of_toNat_ne (by
            rw [toNat_digitChar hd]
            have : ('n' : Char).toNat = 110 := rfl
            omega)
          have h116 : ¬ digitChar d = 't' := char_ne_of_toNat_ne (by
            rw [toNat_digitChar hd]
            have : ('t' : Char).toNat = 116 := rfl
            omega)
          have h102 : ¬ digitChar d = 'f' := char_ne_of_toNat_ne (by
            rw [toNat_digitChar hd]
            have : ('f' : Char).toNat = 102 := rfl
            omega)
          rw [he, List.cons_append,
            parseVal_num f _ _ h34 h123 h91 h110 h116 h102]
          rw [show (digitChar d :: (t ++ s)) = intStr m ++ s from by
            rw [intStr, if_neg hm, ht, List.cons_append]]
          rw [parseNum_intStr m hds]
          rfl
      | str cs =>
        have he : dumpVal ind lvl (Json.str cs) = '"' :: (encBody cs ++ ['"']) := rfl
        rw [he, List.cons_append, List.append_assoc, List.singleton_append,
          parseVal_quote]
        rw [parseStr_encBody cs _ s (by
          simp only [List.length_append, List.length_cons]
          have := encBody_length cs
          omega)]
        rfl
      | arr xs =>
        cases xs with
        | nil =>
          have he : dumpVal ind lvl (Json.arr []) = ['[', ']'] := rfl
          rw [he]
          simp only [List.cons_append, List.nil_append]
          exact parseVal_emptyArr f s
        | cons x t =>
          have he : dumpVal ind lvl (Json.arr (x :: t)) ++ s =
              '[' :: (nlind ind (lvl + 1) ++ (dumpVal ind (lvl + 1) x ++
                (dumpItems ind (lvl + 1) t ++ (nlind ind lvl ++ (']' :: s))))) := by
            show ('[' :: (nlind ind (lvl + 1) ++ (dumpVal ind (lvl + 1) x ++
              (dumpItems ind (lvl + 1) t ++ (nlind ind lvl ++ [']']))))) ++ s = _
            simp [List.cons_append, List.append_assoc]
          rw [he, parseVal_lbracket_congr f (skipWs_nlind hind (lvl + 1) _)]
          obtain ⟨c0, t0, hdh, hws0, hne0⟩ := dump_head ind (lvl + 1) x
          rw [hdh, List.cons_append, parseVal_arr_elem f c0 _ hws0 hne0,
            ← List.cons_append, ← hdh]
          have hnd1 : nodupDeep x = true ∧ nodupDeepL t = true := by
            have hh : nodupDeep (Json.arr (x :: t)) = (nodupDeep x && nodupDeepL t) := rfl
            rw [hh] at hnd
            simpa using hnd
          simp only [sizeJ, sizeL] at hsz
          rw [ih1 x ind (lvl + 1) _ hind hnd1.1 (by omega)
            (digitSafe_items ind (lvl + 1) lvl t (']' :: s))]
          exact ih2 t [x] ind lvl s hind hnd1.2 (by omega)
      | obj ps =>
        cases ps with
        | nil =>
          have he : dumpVal ind lvl (Json.obj []) = [lbrace, rbrace] := rfl
          rw [he]
          simp only [List.cons_append, List.nil_append]
          exact parseVal_emptyObj f s
        | cons p t =>
          have he : dumpVal ind lvl (Json.obj (p :: t)) ++ s =
              lbrace :: (nlind ind (lvl + 1) ++ (encStr p.1 ++ (':' :: ' ' ::
                (dumpVal ind (lvl + 1) p.2 ++
                  (dumpPairs ind (lvl + 1) t ++
                    (nlind ind lvl ++ (rbrace :: s))))))) := by
            show (lbrace :: (nlind ind (lvl + 1) ++ (encStr p.1 ++ (':' :: ' ' ::
              (dumpVal ind (lvl + 1) p.2 ++
                (dumpPairs ind (lvl + 1) t ++ (nlind ind lvl ++ [rbrace]))))))) ++ s = _
            simp [List.cons_append, List.append_assoc]
          rw [he]
          have hnd0 : nodupKeysOf (p :: t) = true ∧ nodupDeepP (p :: t) = true := by
            have hh : nodupDeep (Json.obj (p :: t)) =
              (nodupKeysOf (p :: t) && nodupDeepP (p :: t)) := rfl
            rw [hh] at hnd
            simpa using hnd
          have hfresh : freshIn p.1 t = true ∧ nodupKeysOf t = true := by
            have hh : nodupKeysOf (p :: t) = (freshIn p.1 t && nodupKeysOf t) := rfl
            have := hnd0.1
            rw [hh] at this
            simpa using this
          have hndv : nodupDeep p.2 = true ∧ nodupDeepP t = true := by
            have hh : nodupDeepP (p :: t) = (nodupDeep p.2 && nodupDeepP t) := rfl
            have := hnd0.2
            rw [hh] at this
            simpa using this
          simp only [sizeJ, sizeP] at hsz
          have hv : parseVal f
              (dumpVal ind (lvl + 1) p.2 ++
                (dumpPairs ind (lvl + 1) t ++ (nlind ind lvl ++ (rbrace :: s)))) =
              some (p.2, dumpPairs ind (lvl + 1) t ++ (nlind ind lvl ++ (rbrace :: s))) :=
            ih1 p.2 ind (lvl + 1) _ hind hndv.1 (by omega)
              (digitSafe_pairs ind (lvl + 1) lvl t (rbrace :: s))
          rw [parseVal_obj_member f ind hind (lvl + 1) (lvl + 1) p.1 p.2 _ hv,
            dictInsert_nil]
          exact ih3 t [(p.1, p.2)] ind lvl s hind hndv.2 hfresh.2
            (allFreshP_single hfresh.1 p.2) (by omega)
    · intro xs acc ind lvl s hind hnd hsz
      cases xs with
      | nil =>
        have he : dumpItems ind (lvl + 1) ([] : List Json) ++
            (nlind ind lvl ++ (']' :: s)) = nlind ind lvl ++ (']' :: s) := by
          show ([] : List Char) ++ _ = _
          rw [List.nil_append]
        rw [he, parseArrBody_congr f acc (skipWs_nlind hind lvl _),
          parseArrBody_close, List.append_nil]
      | cons x t =>
        have he : dumpItems ind (lvl + 1) (x :: t) ++ (nlind ind lvl ++ (']' :: s)) =
            ',' :: (nlind ind (lvl + 1) ++ (dumpVal ind (lvl + 1) x ++
              (dumpItems ind (lvl + 1) t ++ (nlind ind lvl ++ (']' :: s))))) := by
          show (',' :: (nlind ind (lvl + 1) ++
            (dumpVal ind (lvl + 1) x ++ dumpItems ind (lvl + 1) t))) ++ _ = _
          simp [List.cons_append, List.append_assoc]
        rw [he, parseArrBody_comma, skipWs_nlind hind, skipWs_dump]
        have hnd1 : nodupDeep x = true ∧ nodupDeepL t = true := by
          have hh : nodupDeepL (x :: t) = (nodupDeep x && nodupDeepL t) := rfl
          rw [hh] at hnd
          simpa using hnd
        simp only [sizeL] at hsz
        rw [ih1 x ind (lvl + 1) _ hind hnd1.1 (by omega)
          (digitSafe_items ind (lvl + 1) lvl t (']' :: s))]
        rw [show acc ++ x :: t = (acc ++ [x]) ++ t from by
          simp [List.append_assoc]]
        exact ih2 t (acc ++ [x]) ind lvl s hind hnd1.2 (by omega)
    · intro ps acc ind lvl s hind hnd hkeys hacc hsz
      cases ps with
      | nil =>
        have he : dumpPairs ind (lvl + 1) ([] : List ((List Char) × Json)) ++
            (nlind ind lvl ++ (rbrace :: s)) = nlind ind lvl ++ (rbrace :: s) := by
          show ([] : List Char) ++ _ = _
          rw [List.nil_append]
        rw [he, parseObjBody_congr f acc (skipWs_nlind hind lvl _),
          parseObjBody_close, List.append_nil]
      | cons p t =>
        have he : dumpPairs ind (lvl + 1) (p :: t) ++
            (nlind ind lvl ++ (rbrace :: s)) =
            ',' :: (nlind ind (lvl + 1) ++ (encStr p.1 ++ (':' :: ' ' ::
              (dumpVal ind (lvl + 1) p.2 ++
                (dumpPairs ind (lvl + 1) t ++
                  (nlind ind lvl ++ (rbrace :: s))))))) := by
          show (',' :: (nlind ind (lvl + 1) ++ (encStr p.1 ++ (':' :: ' ' ::
            (dumpVal ind (lvl + 1) p.2 ++ dumpPairs ind (lvl + 1) t))))) ++ _ = _
          simp [List.cons_append, List.append_assoc]
        rw [he]
        have hnd1 : nodupDeep p.2 = true ∧ nodupDeepP t = true := by
          have hh : nodupDeepP (p :: t) = (nodupDeep p.2 && nodupDeepP t) := rfl
          rw [hh] at hnd
          simpa using hnd
        have hkeys1 : freshIn p.1 t = true ∧ nodupKeysOf t = true := by
          have hh : nodupKeysOf (p :: t) = (freshIn p.1 t && nodupKeysOf t) := rfl
          rw [hh] at hkeys
          simpa using hkeys
        have hacc1 : freshIn p.1 acc = true ∧ allFreshP acc t = true := by
          have hh : allFreshP acc (p :: t) =
            (freshIn p.1 acc && allFreshP acc t) := rfl
          rw [hh] at hacc
          simpa using hacc
        simp only [sizeP] at hsz
        have hv : parseVal f
            (dumpVal ind (lvl + 1) p.2 ++
              (dumpPairs ind (lvl + 1) t ++ (nlind ind lvl ++ (rbrace :: s)))) =
            some (p.2, dumpPairs ind (lvl + 1) t ++ (nlind ind lvl ++ (rbrace :: s))) :=
          ih1 p.2 ind (lvl + 1) _ hind hnd1.1 (by omega)
            (digitSafe_pairs ind (lvl + 1) lvl t (rbrace :: s))
        rw [parseObjBody_member f acc ind hind (lvl + 1) (lvl + 1) p.1 p.2 _ hv,
          dictInsert_fresh hacc1.1 p.2]
        rw [show acc ++ p :: t = (acc ++ [(p.1, p.2)]) ++ t from by
          simp [List.append_assoc]]
        exact ih3 t (acc ++ [(p.1, p.2)]) ind lvl s hind hnd1.2 hkeys1.2
          (allFreshP_snoc hacc1.2 hkeys1.1) (by omega)

theorem loads_dumps {v : Json} (hnd : nodupDeep v = true) (indent : Int) :
    loads (dumps v indent) = some v := by
  unfold loads dumps
  have hind : wsOnly (List.replicate indent.toNat ' ') = true := by
    rw [wsOnly, List.all_eq_true]
    intro c hc
    rw [List.eq_of_mem_replicate hc]
    rfl
  have hskip : skipWs (dumpVal (List.replicate indent.toNat ' ') 0 v) =
      dumpVal (List.replicate indent.toNat ' ') 0 v := by
    have hh := skipWs_dump (List.replicate indent.toNat ' ') 0 v []
    rwa [List.append_nil] at hh
  rw [hskip]
  have hmain := (parse_dump_main
      ((dumpVal (List.replicate indent.toNat ' ') 0 v).length + 1)).1
    v (List.replicate indent.toNat ' ') 0 [] hind hnd
    (by have := sizeJ_le_dump_length v (List.replicate indent.toNat ' ') 0; omega) rfl
  rw [List.append_nil] at hmain
  rw [hmain]
  rfl

/-- Roundtrip of the serializer pair on the float-free fragment of JSON: for
every value of the `Json` model (a value whose objects all have distinct
keys, as every Python `dict` tree does) and every configured indent width,
writing the value with `_write_env_file` and parsing the written file
contents back yields a structurally equal value.  Environment objects whose
numbers are IEEE-754 floats lie outside this model: their reload depends on
the shortest-roundtrip behaviour of `repr` on doubles. -/
theorem write_env_file_roundtrip (obj : Json) (indent : Int) (name : List Char)
    (h : nodupDeep obj = true) :
    loads (write_env_file obj indent name).2 = some obj := by
  show loads (dumps obj indent) = some obj
  exact loads_dumps h indent

/-- The roundtrip evaluated at a concrete environment object and indent 2. -/
theorem write_env_file_roundtrip_witness :
    nodupDeep (Json.obj [(nameKey, Json.str ['D', 'e', 'v']),
      (['i', 'd'], Json.num 7)]) = true ∧
    loads (write_env_file (Json.obj [(nameKey, Json.str ['D', 'e', 'v']),
      (['i', 'd'], Json.num 7)]) 2 ['D', 'e', 'v']).2 =
      some (Json.obj [(nameKey, Json.str ['D', 'e', 'v']),
        (['i', 'd'], Json.num 7)]) :=
  ⟨by decide, write_env_file_roundtrip _ 2 ['D', 'e', 'v'] (by decide)⟩

theorem select_env_cons (maxval : Int) (exclude : Option Int) (o : Option Int)
    (rest : List (Option Int)) :
    select_env maxval exclude (o :: rest) =
      if accepts maxval exclude o then some (envvalOf o, rest)
      else select_env maxval exclude rest := rfl

/-- C9: over any queue of console entries, `_select_env` (modelled as a total
function on the finite queue, so it can neither exit the process nor raise)
keeps reprompting while entries are rejected by its acceptance test
(non-numeric, negative, above `maxval`, or equal to the excluded value) and
returns the first accepted value together with the rest of the queue; it
yields `none` — i.e. the real loop is still reprompting — exactly when every
entry of the queue is rejected. -/
theorem select_env_loop_spec (maxval : Int) (exclude : Option Int)
    (inputs : List (Option Int)) :
    (select_env maxval exclude inputs =
      (match inputs.dropWhile (fun o => !accepts maxval exclude o) with
       | [] => none
       | o :: rest => some (envvalOf o, rest))) ∧
    (select_env maxval exclude inputs = none ↔
      ∀ o ∈ inputs, accepts maxval exclude o = false) := by
  constructor
  · induction inputs with
    | nil => rfl
    | cons o rest ih =>
      rw [select_env_cons, List.dropWhile_cons]
      cases h : accepts maxval exclude o with
      | false => simpa using ih
      | true => simp
  · induction inputs with
    | nil => simp [select_env]
    | cons o rest ih =>
      rw [select_env_cons]
      cases h : accepts maxval exclude o with
      | false =>
        rw [if_neg (by simp), ih]
        constructor
        · intro hall q hq
          rcases List.mem_cons.mp hq with hq | hq
          · rw [hq]; exact h
          · exact hall q hq
        · intro hall q hq
          exact hall q (List.mem_cons_of_mem o hq)
      | true =>
        rw [if_pos rfl]
        constructor
        · intro hcontra
          cases hcontra
        · intro hall
          have h2 := hall o (List.mem_cons_self o rest)
          rw [h] at h2
          cases h2

theorem select_env_ne_exclude {maxval e : Int} {inputs : List (Option Int)}
    {v : Int} {r : List (Option Int)}
    (h : select_env maxval (some e) inputs = some (v, r)) : ¬ v = e := by
  induction inputs with
  | nil => cases h
  | cons o rest ih =>
    rw [select_env_cons] at h
    by_cases ha : accepts maxval (some e) o = true
    · rw [if_pos ha] at h
      injection h with h1
      have hv : v = envvalOf o := (congrArg Prod.fst h1).symm
      unfold accepts at ha
      simp only [Bool.and_eq_true, decide_eq_true_iff] at ha
      rw [hv]
      exact ha.2
    · rw [if_neg ha] at h
      exact ih h

theorem finishFiles_distinct (envs : List Json) (i j indn : Int) (h : ¬ i = j) :
    (match finishFiles envs i j indn with
     | EFResult.files i1 i2 _ _ => ¬ i1 = i2
     | _ => True) := by
  unfold finishFiles
  cases write_one envs i indn with
  | none => trivial
  | some f1 =>
    cases write_one envs j indn with
    | none => trivial
    | some f2 => exact h

theorem efSelection_distinct (envs : List Json) (indn : Int)
    (inputs : List (Option Int)) :
    (match efSelection envs indn inputs with
     | EFResult.files i1 i2 _ _ => ¬ i1 = i2
     | _ => True) := by
  unfold efSelection
  by_cases h1 : envs.length < 2
  · rw [if_pos h1]
    trivial
  · rw [if_neg h1]
    by_cases h2 : envs.length = 2
    · rw [if_pos h2]
      exact finishFiles_distinct envs 0 1 indn (by decide)
    · rw [if_neg h2]
      by_cases h3 : (envs.any fun e => (jGet e nameKey).isNone) = true
      · rw [if_pos h3]
        trivial
      · rw [if_neg h3]
        cases hs1 : select_env (Int.ofNat envs.length) none inputs with
        | none => trivial
        | some p1 =>
          obtain ⟨env1, rest⟩ := p1
          show (match (match select_env (Int.ofNat envs.length) (some env1) rest with
                | none => EFResult.stuck
                | some (env2, _) => finishFiles envs env1 env2 indn) with
              | EFResult.files i1 i2 _ _ => ¬ i1 = i2
              | _ => True)
          cases hs2 : select_env (Int.ofNat envs.length) (some env1) rest with
          | none => trivial
          | some p2 =>
            obtain ⟨env2, r2⟩ := p2
            have hne := select_env_ne_exclude hs2
            exact finishFiles_distinct envs env1 env2 indn
              (fun hcontra => hne (by rw [hcontra]))

/-- C2: in every run of `environment_files` that reaches the serialization
step and returns the two written files, the two selected environment indices
are distinct — whatever the responses, the requested name, the indent and
the console input queue were. -/
theorem selected_indices_distinct (listResp : Response (List Summary))
    (rdname : List Char) (server : Int → Response ReleaseDef) (indn : Int)
    (inputs : List (Option Int)) :
    (match environment_files listResp rdname server indn inputs with
     | EFResult.files i1 i2 _ _ => ¬ i1 = i2
     | _ => True) := by
  unfold environment_files
  cases hok : listResp.ok with
  | false => simp
  | true =>
    rw [if_neg (by simp)]
    unfold efAfterList
    cases find_rdid listResp.body rdname with
    | none => trivial
    | some rdid =>
      show (match efAfterDetail (server rdid) indn inputs with
            | EFResult.files i1 i2 _ _ => ¬ i1 = i2
            | _ => True)
      unfold efAfterDetail
      cases hdok : (server rdid).ok with
      | false => simp
      | true =>
        rw [if_neg (by simp)]
        exact efSelection_distinct (server rdid).body.environments indn inputs

/-- C10: the `rdid` kept by the summary loop is the id of the last summary
in listing order whose name matches, i.e. the first match of the reversed
listing; by definition `environment_files` then issues the detail request
for exactly `find_rdid` of the returned listing. -/
theorem find_rdid_last_match (summaries : List Summary) (n : List Char) :
    find_rdid summaries n =
      Option.map Summary.id
        (summaries.reverse.find? (fun rd => decide (rd.name = n))) := by
  suffices h : ∀ acc : Option Int,
      summaries.foldl (fun acc rd => if rd.name = n then some rd.id else acc) acc =
        (match summaries.reverse.find? (fun rd => decide (rd.name = n)) with
         | some rd => some rd.id
         | none => acc) by
    rw [find_rdid, h none]
    cases summaries.reverse.find? (fun rd => decide (rd.name = n)) <;> rfl
  induction summaries with
  | nil => intro acc; rfl
  | cons rd t ih =>
    intro acc
    rw [List.foldl_cons, ih, List.reverse_cons]
    cases hfind : t.reverse.find? (fun rd => decide (rd.name = n)) with
    | some q =>
      rw [List.find?_append, hfind]
      rfl
    | none =>
      rw [List.find?_append, hfind]
      by_cases hm : rd.name = n
      · simp [List.find?, hm]
      · simp [List.find?, hm]

theorem named_of {e : Json}
    (h : (match jGet e nameKey with
          | some (Json.str _) => true
          | _ => false) = true) :
    ∃ nm, jGet e nameKey = some (Json.str nm) := by
  cases hj : jGet e nameKey with
  | none => rw [hj] at h; cases h
  | some j =>
    rw [hj] at h
    cases j with
    | str nm => exact ⟨nm, rfl⟩
    | null => cases h
    | bool b => cases h
    | num n => cases h
    | arr xs => cases h
    | obj ps => cases h

theorem write_one_pair0 (a b : Json) (indn : Int) {nm : List Char}
    (h : jGet a nameKey = some (Json.str nm)) :
    write_one [a, b] 0 indn = some (write_env_file a indn nm) := by
  show (match jGet a nameKey with
        | some (Json.str nm) => some (write_env_file a indn nm)
        | some _ => none
        | none => none) = _
  rw [h]

theorem write_one_pair1 (a b : Json) (indn : Int) {nm : List Char}
    (h : jGet b nameKey = some (Json.str nm)) :
    write_one [a, b] 1 indn = some (write_env_file b indn nm) := by
  show (match jGet b nameKey with
        | some (Json.str nm) => some (write_env_file b indn nm)
        | some _ => none
        | none => none) = _
  rw [h]

/-- C3: when the environment count is exactly 2 (and the environments are
well-formed, i.e. carry string names, so the writes cannot raise),
`environment_files` performs no prompting — the produced files do not depend
on the console queue, which is not consulted — and selects indices (0, 1) in
original list order. -/
theorem two_envs_auto_select (listResp : Response (List Summary))
    (rdname : List Char) (server : Int → Response ReleaseDef) (indn : Int)
    (rdid : Int)
    (h1 : listResp.ok = true) (h2 : find_rdid listResp.body rdname = some rdid)
    (h3 : (server rdid).ok = true)
    (h4 : (server rdid).body.environments.length = 2)
    (h5 : envsNamed (server rdid).body.environments = true) :
    ∃ f1 f2, ∀ inputs, environment_files listResp rdname server indn inputs =
      EFResult.files 0 1 f1 f2 := by
  obtain ⟨a, b, hab⟩ := List.length_eq_two.mp h4
  rw [hab] at h5
  simp only [envsNamed, List.all_cons, List.all_nil, Bool.and_eq_true,
    Bool.and_true] at h5
  obtain ⟨nma, hnma⟩ := named_of h5.1
  obtain ⟨nmb, hnmb⟩ := named_of h5.2
  refine ⟨write_env_file a indn nma, write_env_file b indn nmb, fun inputs => ?_⟩
  unfold environment_files
  rw [if_neg (by simp [h1]), h2]
  show efAfterDetail (server rdid) indn inputs = _
  unfold efAfterDetail
  rw [if_neg (by simp [h3])]
  unfold efSelection
  rw [hab]
  rw [if_neg (by simp), if_pos (by simp)]
  unfold finishFiles
  rw [write_one_pair0 a b indn hnma, write_one_pair1 a b indn hnmb]

/-- Witness for C3 at a concrete two-environment release definition. -/
theorem two_envs_auto_select_witness :
    ((⟨true, 200, [⟨['X'], 5⟩]⟩ : Response (List Summary)).ok = true ∧
     find_rdid [⟨['X'], 5⟩] ['X'] = some 5 ∧
     envsNamed [Json.obj [(nameKey, Json.str ['A'])],
       Json.obj [(nameKey, Json.str ['B'])]] = true) ∧
    (∃ f1 f2, ∀ inputs,
      environment_files ⟨true, 200, [⟨['X'], 5⟩]⟩ ['X']
        (fun _ => ⟨true, 200,
          ⟨[Json.obj [(nameKey, Json.str ['A'])],
            Json.obj [(nameKey, Json.str ['B'])]]⟩⟩) 2 inputs =
        EFResult.files 0 1 f1 f2) :=
  ⟨⟨rfl, rfl, by decide⟩,
   two_envs_auto_select _ ['X'] _ 2 5 rfl rfl rfl rfl (by decide)⟩

/-- C4: when fewer than two environments exist, `environment_files` performs
`sys.exit(2)` — the run ends in `EFResult.exit 2` and never reaches the
`files` outcome, so no temporary file is written, whatever the console
queue. -/
theorem too_few_envs_exit2 (listResp : Response (List Summary))
    (rdname : List Char) (server : Int → Response ReleaseDef) (indn : Int)
    (rdid : Int)
    (h1 : listResp.ok = true) (h2 : find_rdid listResp.body rdname = some rdid)
    (h3 : (server rdid).ok = true)
    (h4 : (server rdid).body.environments.length < 2) :
    ∀ inputs, environment_files listResp rdname server indn inputs =
      EFResult.exit 2 := by
  intro inputs
  unfold environment_files
  rw [if_neg (by simp [h1]), h2]
  show efAfterDetail (server rdid) indn inputs = _
  unfold efAfterDetail
  rw [if_neg (by simp [h3])]
  unfold efSelection
  rw [if_pos h4]

/-- Witness for C4 at a concrete single-environment release definition. -/
theorem too_few_envs_exit2_witness :
    ((⟨true, 200, [⟨['X'], 5⟩]⟩ : Response (List Summary)).ok = true ∧
     find_rdid [⟨['X'], 5⟩] ['X'] = some 5 ∧
     ([Json.obj [(nameKey, Json.str ['A'])]] : List Json).length < 2) ∧
    environment_files ⟨true, 200, [⟨['X'], 5⟩]⟩ ['X']
      (fun _ => ⟨true, 200, ⟨[Json.obj [(nameKey, Json.str ['A'])]]⟩⟩) 2 [] =
      EFResult.exit 2 :=
  ⟨⟨rfl, rfl, by decide⟩,
   too_few_envs_exit2 ⟨true, 200, [⟨['X'], 5⟩]⟩ ['X']
     (fun _ => ⟨true, 200, ⟨[Json.obj [(nameKey, Json.str ['A'])]]⟩⟩) 2 5
     rfl rfl rfl (by decide) []⟩

theorem find_rdid_no_match (n : List Char) : ∀ (s : List Summary),
    (∀ rd ∈ s, ¬ rd.name = n) → ∀ acc : Option Int,
    s.foldl (fun acc rd => if rd.name = n then some rd.id else acc) acc = acc := by
  intro s
  induction s with
  | nil => intro _ acc; rfl
  | cons rd t ih =>
    intro h acc
    rw [List.foldl_cons, if_neg (h rd (List.mem_cons_self rd t))]
    exact ih (fun q hq => h q (List.mem_cons_of_mem rd hq)) acc

/-- C5: when no summary of the listing carries the requested name, the run
performs `sys.exit(1)`; this holds for every detail server, i.e. before any
second GET request can influence the outcome. -/
theorem definition_not_found_exit1 (listResp : Response (List Summary))
    (rdname : List Char) (indn : Int)
    (h1 : listResp.ok = true)
    (h2 : ∀ rd ∈ listResp.body, ¬ rd.name = rdname) :
    ∀ (server : Int → Response ReleaseDef) (inputs : List (Option Int)),
      environment_files listResp rdname server indn inputs = EFResult.exit 1 := by
  intro server inputs
  unfold environment_files
  rw [if_neg (by simp [h1])]
  have hn : find_rdid listResp.body rdname = none := by
    rw [find_rdid]
    exact find_rdid_no_match rdname listResp.body h2 none
  rw [hn]
  rfl

/-- Witness for C5 at a concrete listing without the requested name. -/
theorem definition_not_found_exit1_witness :
    ((⟨true, 200, [⟨['Y'], 1⟩, ⟨['Z'], 2⟩]⟩ : Response (List Summary)).ok = true ∧
     (∀ rd ∈ ([⟨['Y'], 1⟩, ⟨['Z'], 2⟩] : List Summary), ¬ rd.name = ['X'])) ∧
    environment_files ⟨true, 200, [⟨['Y'], 1⟩, ⟨['Z'], 2⟩]⟩ ['X']
      (fun _ => ⟨true, 200, ⟨[]⟩⟩) 2 [] = EFResult.exit 1 :=
  ⟨⟨rfl, by decide⟩,
   definition_not_found_exit1 _ ['X'] 2 rfl (by decide) _ []⟩

/-- C6: if the list response is not `ok` the run performs `sys.exit` with
that response code; if the list response is `ok`, a definition is found and
the detail response is not `ok`, the run performs `sys.exit` with the detail
response code.  Termination is immediate: the result is the `exit` outcome,
nothing later happens. -/
theorem http_failure_exits (listResp : Response (List Summary))
    (rdname : List Char) (server : Int → Response ReleaseDef) (indn : Int)
    (inputs : List (Option Int)) :
    (listResp.ok = false →
      environment_files listResp rdname server indn inputs =
        EFResult.exit listResp.status_code) ∧
    (∀ rdid, listResp.ok = true →
      find_rdid listResp.body rdname = some rdid →
      (server rdid).ok = false →
      environment_files listResp rdname server indn inputs =
        EFResult.exit (server rdid).status_code) := by
  constructor
  · intro h
    unfold environment_files
    rw [if_pos (by simp [h])]
  · intro rdid h1 h2 h3
    unfold environment_files
    rw [if_neg (by simp [h1]), h2]
    show efAfterDetail (server rdid) indn inputs = _
    unfold efAfterDetail
    rw [if_pos (by simp [h3])]

/-- Witness for C6: a failed list request with status 404, and a failed
detail request with status 500. -/
theorem http_failure_exits_witness :
    environment_files ⟨false, 404, []⟩ ['X']
      (fun _ => ⟨true, 200, ⟨[]⟩⟩) 2 [] = EFResult.exit 404 ∧
    environment_files ⟨true, 200, [⟨['X'], 5⟩]⟩ ['X']
      (fun _ => ⟨false, 500, ⟨[]⟩⟩) 2 [] = EFResult.exit 500 :=
  ⟨(http_failure_exits _ ['X'] _ 2 []).1 rfl,
   (http_failure_exits _ ['X'] _ 2 []).2 5 rfl rfl rfl⟩

/-- C1 (code-bug evidence): with three environments the code passes
`maxval = numenvs = 3` to `_select_env`, whose check `envval <= maxval`
accepts the entry `3` — an index equal to the environment count, outside the
menu `0..2` that was printed — and the subsequent subscription
`environments[3]` raises `IndexError` (the `EFResult.exc` outcome) instead
of reprompting as the claim states. -/
theorem select_env_accepts_count_bug :
    select_env 3 none [some 3] = some (3, []) ∧
    environment_files ⟨true, 200, [⟨['X'], 5⟩]⟩ ['X']
      (fun _ => ⟨true, 200,
        ⟨[Json.obj [(nameKey, Json.str ['A'])],
          Json.obj [(nameKey, Json.str ['B'])],
          Json.obj [(nameKey, Json.str ['C'])]]⟩⟩) 2
      [some 3, some 0] = EFResult.exc :=
  ⟨rfl, rfl⟩

/-- C8 counterexample: supplying the explicit (empty-string) compare path
`-c ""` on the command line still ends in `sys.exit(3)` when no probed
candidate exists, because `if options.bc:` treats the empty string as
falsy — contradicting the claim that exit code 3 occurs only when no
explicit path was supplied, and showing the probing logic is consulted. -/
theorem resolve_empty_path_counterexample :
    resolve_diff_exe (some []) ['C'] ['D'] ['E'] (fun _ => false) =
      DiffResolution.exit3 := rfl

/-- C8 (amended): when a non-empty explicit diff-tool path is supplied the
probing logic is never consulted — the outcome is `use s` for every `isfile`
oracle — and exit code 3 occurs exactly when the flag was absent or empty
and none of the probed candidate paths exists on disk. -/
theorem resolve_diff_exe_amended (bc : Option (List Char))
    (pf pf86 pw64 : List Char) (isfile : List Char → Bool) :
    (∀ s, bc = some s → ¬ s = [] →
      resolve_diff_exe bc pf pf86 pw64 isfile = DiffResolution.use s) ∧
    (resolve_diff_exe bc pf pf86 pw64 isfile = DiffResolution.exit3 ↔
      ((bc = none ∨ bc = some []) ∧
        get_diff_exe pf pf86 pw64 isfile = none)) := by
  constructor
  · rintro s rfl hs
    show (if s.isEmpty = true then resolveProbe pf pf86 pw64 isfile
          else DiffResolution.use s) = DiffResolution.use s
    rw [if_neg (by simpa [List.isEmpty_iff] using hs)]
  · cases bc with
    | none =>
      show resolveProbe pf pf86 pw64 isfile = DiffResolution.exit3 ↔ _
      unfold resolveProbe
      cases hg : get_diff_exe pf pf86 pw64 isfile with
      | none => simp
      | some p => simp
    | some s =>
      cases s with
      | nil =>
        show resolveProbe pf pf86 pw64 isfile = DiffResolution.exit3 ↔ _
        unfold resolveProbe
        cases hg : get_diff_exe pf pf86 pw64 isfile with
        | none => simp
        | some p => simp
      | cons c t =>
        show DiffResolution.use (c :: t) = DiffResolution.exit3 ↔ _
        simp

/-- Witness for C8 (amended) at a concrete supplied path and oracle. -/
theorem resolve_diff_exe_amended_witness :
    resolve_diff_exe (some ['m']) ['C'] ['D'] ['E'] (fun _ => true) =
      DiffResolution.use ['m'] ∧
    (resolve_diff_exe (some ['m']) ['C'] ['D'] ['E'] (fun _ => true) =
        DiffResolution.exit3 ↔
      ((some ['m'] = none ∨ some ['m'] = some []) ∧
        get_diff_exe ['C'] ['D'] ['E'] (fun _ => true) = none)) :=
  ⟨(resolve_diff_exe_amended (some ['m']) ['C'] ['D'] ['E'] (fun _ => true)).1
      ['m'] rfl (by decide),
   (resolve_diff_exe_amended (some ['m']) ['C'] ['D'] ['E'] (fun _ => true)).2⟩
